import Mathlib

/-!
Shallow embedding of the qrqrpar QR / Micro QR / rMQR encoder core
(`src/types.rs` and `src/bits.rs`).

Machine integers are modelled as `Nat` with explicit `% 256` (`u8` casts) and
`+ 65536 ... % 65536` (wrapping `u16` subtraction) where overflow matters.
Fallible operations on `Bits` mirror Rust's `&mut self -> QrResult<()>`
signature: they return the final state paired with an optional error, so a
partially updated state on an error path is observable, as it is in Rust.
-/

/-- Error enum `QrError` of `types.rs`. -/
inductive QrError where
  | DataTooLong
  | InvalidVersion
  | UnsupportedCharacterSet
  | InvalidEciDesignator
  | InvalidCharacter
deriving DecidableEq, Repr

deriving instance DecidableEq for Except

/-- Error-correction level enum `EcLevel` of `types.rs`. -/
inductive EcLevel where
  | L
  | M
  | Q
  | H
deriving DecidableEq, Repr

/-- The discriminant of an `EcLevel`, i.e. Rust's `ec_level as usize`. -/
def EcLevel.index : EcLevel → Nat
  | .L => 0
  | .M => 1
  | .Q => 2
  | .H => 3

/-- Mode enum `Mode` of `types.rs`. -/
inductive Mode where
  | Numeric
  | Alphanumeric
  | Byte
  | Kanji
deriving DecidableEq, Repr

/-- Version enum `Version` of `types.rs`; the `u8` payloads are modelled as
`Nat`. -/
inductive Version where
  | Normal (v : Nat)
  | Micro (v : Nat)
  | Rmqr (h w : Nat)
deriving DecidableEq, Repr

/-- The table `DATA_LENGTHS: [[usize; 4]; 76]` of `bits.rs`: 40 Normal rows,
4 Micro rows, 32 rMQR rows; columns are `[L, M, Q, H]`. -/
def DATA_LENGTHS : List (List Nat) := [
  [152, 128, 104, 72],
  [272, 224, 176, 128],
  [440, 352, 272, 208],
  [640, 512, 384, 288],
  [864, 688, 496, 368],
  [1088, 864, 608, 480],
  [1248, 992, 704, 528],
  [1552, 1232, 880, 688],
  [1856, 1456, 1056, 800],
  [2192, 1728, 1232, 976],
  [2592, 2032, 1440, 1120],
  [2960, 2320, 1648, 1264],
  [3424, 2672, 1952, 1440],
  [3688, 2920, 2088, 1576],
  [4184, 3320, 2360, 1784],
  [4712, 3624, 2600, 2024],
  [5176, 4056, 2936, 2264],
  [5768, 4504, 3176, 2504],
  [6360, 5016, 3560, 2728],
  [6888, 5352, 3880, 3080],
  [7456, 5712, 4096, 3248],
  [8048, 6256, 4544, 3536],
  [8752, 6880, 4912, 3712],
  [9392, 7312, 5312, 4112],
  [10208, 8000, 5744, 4304],
  [10960, 8496, 6032, 4768],
  [11744, 9024, 6464, 5024],
  [12248, 9544, 6968, 5288],
  [13048, 10136, 7288, 5608],
  [13880, 10984, 7880, 5960],
  [14744, 11640, 8264, 6344],
  [15640, 12328, 8920, 6760],
  [16568, 13048, 9368, 7208],
  [17528, 13800, 9848, 7688],
  [18448, 14496, 10288, 7888],
  [19472, 15312, 10832, 8432],
  [20528, 15936, 11408, 8768],
  [21616, 16816, 12016, 9136],
  [22496, 17728, 12656, 9776],
  [23648, 18672, 13328, 10208],
  [20, 0, 0, 0],
  [40, 32, 0, 0],
  [84, 68, 0, 0],
  [128, 112, 80, 0],
  [0, 48, 0, 24],
  [0, 96, 0, 56],
  [0, 160, 0, 80],
  [0, 224, 0, 112],
  [0, 352, 0, 192],
  [0, 96, 0, 56],
  [0, 168, 0, 88],
  [0, 248, 0, 136],
  [0, 336, 0, 176],
  [0, 504, 0, 264],
  [0, 56, 0, 40],
  [0, 152, 0, 88],
  [0, 248, 0, 120],
  [0, 344, 0, 184],
  [0, 456, 0, 232],
  [0, 672, 0, 336],
  [0, 96, 0, 56],
  [0, 216, 0, 104],
  [0, 304, 0, 160],
  [0, 424, 0, 232],
  [0, 584, 0, 280],
  [0, 848, 0, 432],
  [0, 264, 0, 120],
  [0, 384, 0, 208],
  [0, 536, 0, 248],
  [0, 704, 0, 384],
  [0, 1016, 0, 552],
  [0, 312, 0, 168],
  [0, 448, 0, 224],
  [0, 624, 0, 304],
  [0, 800, 0, 448],
  [0, 1216, 0, 608]]

/-- `DATA_LENGTHS[i][ec_level as usize]` (out-of-range reads, which the Rust
code never performs, default to `0`). -/
def capAt (i : Nat) (ec : EcLevel) : Nat :=
  (DATA_LENGTHS.getD i []).getD ec.index 0

/-- The table `RMQR_LENGTH_BITS_COUNT: [[usize; 4]; 32]` of `types.rs`;
columns are `[Numeric, Alphanumeric, Byte, Kanji]`. -/
def RMQR_LENGTH_BITS_COUNT : List (List Nat) := [
  [4, 3, 3, 2],
  [5, 5, 4, 3],
  [6, 5, 5, 4],
  [7, 6, 5, 5],
  [7, 6, 6, 5],
  [5, 5, 4, 3],
  [6, 5, 5, 4],
  [7, 6, 5, 5],
  [7, 6, 6, 5],
  [8, 7, 6, 6],
  [4, 4, 3, 2],
  [6, 5, 5, 4],
  [7, 6, 5, 5],
  [7, 6, 6, 5],
  [8, 7, 6, 6],
  [8, 7, 7, 6],
  [5, 5, 4, 3],
  [6, 6, 5, 5],
  [7, 6, 6, 5],
  [7, 7, 6, 6],
  [8, 7, 7, 6],
  [8, 8, 7, 7],
  [7, 6, 6, 5],
  [7, 7, 6, 5],
  [8, 7, 7, 6],
  [8, 7, 7, 6],
  [9, 8, 7, 7],
  [7, 6, 6, 5],
  [8, 7, 6, 6],
  [8, 7, 7, 6],
  [8, 8, 7, 6],
  [9, 8, 8, 7]]

/-- `Version::width` of `types.rs`. -/
def Version.width : Version → Nat
  | .Normal v => v * 4 + 17
  | .Micro v => v * 2 + 9
  | .Rmqr _ a => a

/-- `Version::height` of `types.rs`. -/
def Version.height : Version → Nat
  | .Rmqr a _ => a
  | v => v.width

/-- `Version::area` of `types.rs`. -/
def Version.area (v : Version) : Nat := v.width * v.height

/-- The 32 `(h, w)` arms of `Version::rmqr_index` in `types.rs`, rendered as
an equality chain ending in the `_ => Err(InvalidVersion)` arm. -/
def rmqrPairIndex (h w : Nat) : Except QrError Nat :=
  if h = 7 ∧ w = 43 then .ok 0
  else if h = 7 ∧ w = 59 then .ok 1
  else if h = 7 ∧ w = 77 then .ok 2
  else if h = 7 ∧ w = 99 then .ok 3
  else if h = 7 ∧ w = 139 then .ok 4
  else if h = 9 ∧ w = 43 then .ok 5
  else if h = 9 ∧ w = 59 then .ok 6
  else if h = 9 ∧ w = 77 then .ok 7
  else if h = 9 ∧ w = 99 then .ok 8
  else if h = 9 ∧ w = 139 then .ok 9
  else if h = 11 ∧ w = 27 then .ok 10
  else if h = 11 ∧ w = 43 then .ok 11
  else if h = 11 ∧ w = 59 then .ok 12
  else if h = 11 ∧ w = 77 then .ok 13
  else if h = 11 ∧ w = 99 then .ok 14
  else if h = 11 ∧ w = 139 then .ok 15
  else if h = 13 ∧ w = 27 then .ok 16
  else if h = 13 ∧ w = 43 then .ok 17
  else if h = 13 ∧ w = 59 then .ok 18
  else if h = 13 ∧ w = 77 then .ok 19
  else if h = 13 ∧ w = 99 then .ok 20
  else if h = 13 ∧ w = 139 then .ok 21
  else if h = 15 ∧ w = 43 then .ok 22
  else if h = 15 ∧ w = 59 then .ok 23
  else if h = 15 ∧ w = 77 then .ok 24
  else if h = 15 ∧ w = 99 then .ok 25
  else if h = 15 ∧ w = 139 then .ok 26
  else if h = 17 ∧ w = 43 then .ok 27
  else if h = 17 ∧ w = 59 then .ok 28
  else if h = 17 ∧ w = 77 then .ok 29
  else if h = 17 ∧ w = 99 then .ok 30
  else if h = 17 ∧ w = 139 then .ok 31
  else .error .InvalidVersion

/-- `Version::rmqr_index` of `types.rs`. -/
def Version.rmqr_index (v : Version) : Except QrError Nat :=
  match v with
  | .Rmqr h w => rmqrPairIndex h w
  | _ => .error .InvalidVersion

/-- `Version::is_rmqr` of `types.rs`. -/
def Version.is_rmqr (v : Version) : Bool :=
  match v.rmqr_index with
  | .ok _ => true
  | .error _ => false

/-- `Version::is_micro` of `types.rs`. -/
def Version.is_micro : Version → Bool
  | .Micro _ => true
  | _ => false

/-- `Version::fetch` of `types.rs`, specialized to the `usize` table
`DATA_LENGTHS` of `bits.rs` (so the generic `T::default()` is `0`). -/
def Version.fetch (v : Version) (ec_level : EcLevel) : Except QrError Nat :=
  match v with
  | .Normal n =>
      if 1 ≤ n ∧ n ≤ 40 then .ok (capAt (n - 1) ec_level)
      else .error .InvalidVersion
  | .Micro n =>
      if 1 ≤ n ∧ n ≤ 4 then
        let obj := capAt (n + 39) ec_level
        if obj ≠ 0 then .ok obj else .error .InvalidVersion
      else .error .InvalidVersion
  | .Rmqr _ _ =>
      match v.rmqr_index with
      | .ok index =>
          let obj := capAt (index + 44) ec_level
          if obj ≠ 0 then .ok obj else .error .InvalidVersion
      | .error e => .error e

/-- `Version::mode_bits_count` of `types.rs`; the Micro arm is the `u8`
subtraction `a - 1`, which wraps on `a == 0` in release builds, so it is
modelled as `(a + 255) % 256`. -/
def Version.mode_bits_count : Version → Nat
  | .Normal _ => 4
  | .Micro a => (a + 255) % 256
  | .Rmqr _ _ => 3

/-- `Version::rmqr_all_width` of `types.rs`. -/
def rmqr_all_width : List Nat := [27, 43, 59, 77, 99, 139]

/-- `Version::rmqr_all_height` of `types.rs`. -/
def rmqr_all_height : List Nat := [7, 9, 11, 13, 15, 17]

/-- `Mode::length_bits_count` of `types.rs`. -/
def Mode.length_bits_count (m : Mode) (version : Version) : Nat :=
  match version with
  | .Micro a =>
      match m with
      | .Numeric => 2 + a
      | .Alphanumeric | .Byte => 1 + a
      | .Kanji => a
  | .Normal n =>
      if 1 ≤ n ∧ n ≤ 9 then
        match m with
        | .Numeric => 10
        | .Alphanumeric => 9
        | .Byte | .Kanji => 8
      else if 10 ≤ n ∧ n ≤ 26 then
        match m with
        | .Numeric => 12
        | .Alphanumeric => 11
        | .Byte => 16
        | .Kanji => 10
      else
        match m with
        | .Numeric => 14
        | .Alphanumeric => 13
        | .Byte => 16
        | .Kanji => 12
  | .Rmqr hh ww =>
      let index := match (Version.Rmqr hh ww).rmqr_index with
        | .ok i => i
        | .error _ => 31
      let row := RMQR_LENGTH_BITS_COUNT.getD index []
      match m with
      | .Numeric => row.getD 0 0
      | .Alphanumeric => row.getD 1 0
      | .Byte => row.getD 2 0
      | .Kanji => row.getD 3 0

/-- `Mode::data_bits_count` of `types.rs`. -/
def Mode.data_bits_count (m : Mode) (raw_data_len : Nat) : Nat :=
  match m with
  | .Numeric => (raw_data_len * 10 + 2) / 3
  | .Alphanumeric => (raw_data_len * 11 + 1) / 2
  | .Byte => raw_data_len * 8
  | .Kanji => raw_data_len * 13

/-- The `PartialOrd::partial_cmp` implementation for `Mode` in `types.rs`
(named `pcmp` here). -/
def Mode.pcmp : Mode → Mode → Option Ordering
  | .Numeric, .Alphanumeric => some .lt
  | .Numeric, .Byte => some .lt
  | .Alphanumeric, .Byte => some .lt
  | .Kanji, .Byte => some .lt
  | .Alphanumeric, .Numeric => some .gt
  | .Byte, .Numeric => some .gt
  | .Byte, .Alphanumeric => some .gt
  | .Byte, .Kanji => some .gt
  | a, b => if a = b then some .eq else none

/-- `Mode::max` of `types.rs`. -/
def Mode.max (m other : Mode) : Mode :=
  match m.pcmp other with
  | some .lt => other
  | some .eq => other
  | some .gt => m
  | none => .Byte

/-- The `Bits` structure of `bits.rs`; `data` elements are byte values. -/
structure Bits where
  data : List Nat
  bit_offset : Nat
  version : Version
deriving DecidableEq, Repr

/-- `Bits::new` of `bits.rs`. -/
def Bits.new (version : Version) : Bits := ⟨[], 0, version⟩

/-- Helper for `self.data[last_index] |= x`: bitwise-or `x` into the last
element.  On an empty list (which the Rust code never reaches: the caller's
`bit_offset != 0` guarantees a last byte) this is the identity. -/
def orLast : List Nat → Nat → List Nat
  | [], _ => []
  | [a], x => [a ||| x]
  | a :: b :: rest, x => a :: orLast (b :: rest) x

/-- `Bits::push_number` of `bits.rs`.  The five match arms on
`(bit_offset, b)` become nested conditionals; each `as u8` cast is `% 256`,
each `<<`/`>>` is multiplication/division by a power of two. -/
def Bits.push_number (bits : Bits) (n number : Nat) : Bits :=
  let s := bits.bit_offset + n
  if bits.bit_offset = 0 then
    if s ≤ 8 then
      { bits with data := bits.data ++ [number * 2 ^ (8 - s) % 256],
                  bit_offset := s % 8 }
    else
      { bits with data := bits.data ++
                    [number / 2 ^ (s - 8) % 256, number * 2 ^ (16 - s) % 256],
                  bit_offset := s % 8 }
  else
    if s ≤ 8 then
      { bits with data := orLast bits.data (number * 2 ^ (8 - s) % 256),
                  bit_offset := s % 8 }
    else if s ≤ 16 then
      { bits with data := orLast bits.data (number / 2 ^ (s - 8) % 256) ++
                    [number * 2 ^ (16 - s) % 256],
                  bit_offset := s % 8 }
    else
      { bits with data := orLast bits.data (number / 2 ^ (s - 8) % 256) ++
                    [number / 2 ^ (s - 16) % 256, number * 2 ^ (24 - s) % 256],
                  bit_offset := s % 8 }

/-- `Bits::push_number_checked` of `bits.rs`. -/
def Bits.push_number_checked (bits : Bits) (n number : Nat) :
    Bits × Option QrError :=
  if 16 < n ∨ 2 ^ n ≤ number then (bits, some .DataTooLong)
  else (bits.push_number n number, none)

/-- `Bits::len` of `bits.rs`. -/
def Bits.len (bits : Bits) : Nat :=
  if bits.bit_offset = 0 then bits.data.length * 8
  else (bits.data.length - 1) * 8 + bits.bit_offset

/-- `Bits::is_empty` of `bits.rs`. -/
def Bits.is_empty (bits : Bits) : Bool := bits.data.isEmpty

/-- `Bits::max_len` of `bits.rs` (`self.version.fetch(ec_level, &DATA_LENGTHS)`). -/
def Bits.max_len (bits : Bits) (ec_level : EcLevel) : Except QrError Nat :=
  bits.version.fetch ec_level

/-- `Bits::into_bytes` of `bits.rs`. -/
def Bits.into_bytes (bits : Bits) : List Nat := bits.data

/-- `Bits::push_mode_indicator` of `bits.rs`. -/
def Bits.push_mode_indicator (bits : Bits) (mode : Mode) :
    Bits × Option QrError :=
  match bits.version, mode with
  | .Micro 1, .Numeric => (bits, none)
  | _, _ =>
      let number : Nat :=
        match bits.version, mode with
        | .Micro _, .Numeric => 0
        | .Micro _, .Alphanumeric => 1
        | .Micro _, .Byte => 2
        | .Micro _, .Kanji => 3
        | .Rmqr _ _, .Numeric => 1
        | .Rmqr _ _, .Alphanumeric => 2
        | .Rmqr _ _, .Byte => 3
        | .Rmqr _ _, .Kanji => 4
        | .Normal _, .Numeric => 1
        | .Normal _, .Alphanumeric => 2
        | .Normal _, .Byte => 4
        | .Normal _, .Kanji => 8
      let r := bits.push_number_checked bits.version.mode_bits_count number
      (r.1, r.2.map fun _ => QrError.UnsupportedCharacterSet)

/-- `Bits::push_header` of `bits.rs` (the `reserve` call only affects
allocation and is omitted). -/
def Bits.push_header (bits : Bits) (mode : Mode) (raw_data_len : Nat) :
    Bits × Option QrError :=
  let length_bits := mode.length_bits_count bits.version
  match bits.push_mode_indicator mode with
  | (b1, some e) => (b1, some e)
  | (b1, none) => b1.push_number_checked length_bits raw_data_len

/-- The per-byte digit value `u16::from(*b - b'0')` of `push_numeric_data`
(`u8` wrapping subtraction). -/
def numericDigit (x : Nat) : Nat := (x + 256 - 48) % 256

/-- The fold `chunk.iter().fold(0, |a, b| a * 10 + b)` over digit values. -/
def numericChunkValue (chunk : List Nat) : Nat :=
  chunk.foldl (fun a x => a * 10 + numericDigit x) 0

/-- The loop `for chunk in data.chunks(3)` of `push_numeric_data`: a full
chunk takes `3 * 3 + 1 = 10` bits, a trailing chunk of 2 takes 7, of 1
takes 4. -/
def pushNumericGroups (bits : Bits) : List Nat → Bits
  | [] => bits
  | [d1] => bits.push_number 4 (numericChunkValue [d1])
  | [d1, d2] => bits.push_number 7 (numericChunkValue [d1, d2])
  | d1 :: d2 :: d3 :: rest =>
      pushNumericGroups (bits.push_number 10 (numericChunkValue [d1, d2, d3])) rest

/-- `Bits::push_numeric_data` of `bits.rs`. -/
def Bits.push_numeric_data (bits : Bits) (data : List Nat) :
    Bits × Option QrError :=
  match bits.push_header .Numeric data.length with
  | (b1, some e) => (b1, some e)
  | (b1, none) => (pushNumericGroups b1 data, none)

/-- The function `alphanumeric_digit` of `bits.rs`; unknown characters map
to `0` (the `_ => 0` arm). -/
def alphanumeric_digit (character : Nat) : Nat :=
  if 48 ≤ character ∧ character ≤ 57 then character - 48
  else if 65 ≤ character ∧ character ≤ 90 then character - 65 + 10
  else if character = 32 then 36
  else if character = 36 then 37
  else if character = 37 then 38
  else if character = 42 then 39
  else if character = 43 then 40
  else if character = 45 then 41
  else if character = 46 then 42
  else if character = 47 then 43
  else if character = 58 then 44
  else 0

/-- The fold `chunk.iter().fold(0, |a, b| a * 45 + b)` over base-45 digits. -/
def alnumChunkValue (chunk : List Nat) : Nat :=
  chunk.foldl (fun a x => a * 45 + alphanumeric_digit x) 0

/-- The loop `for chunk in data.chunks(2)` of `push_alphanumeric_data`: a
full pair takes `2 * 5 + 1 = 11` bits, a trailing single takes 6. -/
def pushAlnumGroups (bits : Bits) : List Nat → Bits
  | [] => bits
  | [c1] => bits.push_number 6 (alnumChunkValue [c1])
  | c1 :: c2 :: rest =>
      pushAlnumGroups (bits.push_number 11 (alnumChunkValue [c1, c2])) rest

/-- `Bits::push_alphanumeric_data` of `bits.rs`. -/
def Bits.push_alphanumeric_data (bits : Bits) (data : List Nat) :
    Bits × Option QrError :=
  match bits.push_header .Alphanumeric data.length with
  | (b1, some e) => (b1, some e)
  | (b1, none) => (pushAlnumGroups b1 data, none)

/-- The loop `for b in data` of `push_byte_data`: 8 bits per byte. -/
def pushByteList (bits : Bits) : List Nat → Bits
  | [] => bits
  | x :: rest => pushByteList (bits.push_number 8 x) rest

/-- `Bits::push_byte_data` of `bits.rs`. -/
def Bits.push_byte_data (bits : Bits) (data : List Nat) :
    Bits × Option QrError :=
  match bits.push_header .Byte data.length with
  | (b1, some e) => (b1, some e)
  | (b1, none) => (pushByteList b1 data, none)

/-- The 13-bit Kanji code of one 2-byte pair in `push_kanji_data`; the `u16`
subtractions `cp - 0x8140` / `cp - 0xc140` wrap, hence `+ 65536 ... % 65536`. -/
def kanjiNumber (k1 k2 : Nat) : Nat :=
  let cp := k1 * 256 + k2
  let bytes :=
    if cp < 0xe040 then (cp + 65536 - 0x8140) % 65536
    else (cp + 65536 - 0xc140) % 65536
  bytes / 256 * 0xc0 + bytes % 256

/-- The loop `for kanji in data.chunks(2)` of `push_kanji_data`; a trailing
chunk of length 1 returns `InvalidCharacter` with the state built so far. -/
def pushKanjiPairs (bits : Bits) : List Nat → Bits × Option QrError
  | [] => (bits, none)
  | [_] => (bits, some .InvalidCharacter)
  | k1 :: k2 :: rest => pushKanjiPairs (bits.push_number 13 (kanjiNumber k1 k2)) rest

/-- `Bits::push_kanji_data` of `bits.rs`. -/
def Bits.push_kanji_data (bits : Bits) (data : List Nat) :
    Bits × Option QrError :=
  match bits.push_header .Kanji (data.length / 2) with
  | (b1, some e) => (b1, some e)
  | (b1, none) => pushKanjiPairs b1 data

/-- `PADDING_BYTES` of `push_terminator`. -/
def PADDING_BYTES : List Nat := [0xEC, 0x11]

/-- `PADDING_BYTES.iter().cloned().cycle().take(count)`. -/
def paddingBytes (count : Nat) : List Nat :=
  (List.range count).map fun i => PADDING_BYTES.getD (i % 2) 0

/-- The `terminator_size` match at the top of `push_terminator` in `bits.rs`:
`2 * a + 1` zero bits for `Micro(a)`, 3 for rMQR, 4 otherwise. -/
def terminatorSize (v : Version) : Nat :=
  match v with
  | .Micro a => a * 2 + 1
  | .Rmqr _ _ => 3
  | _ => 4

/-- `Bits::push_terminator` of `bits.rs` (`saturating_sub` is `Nat`
subtraction). -/
def Bits.push_terminator (bits : Bits) (ec_level : EcLevel) :
    Bits × Option QrError :=
  let terminator_size : Nat := terminatorSize bits.version
  let cur_length := bits.len
  match bits.max_len ec_level with
  | .error e => (bits, some e)
  | .ok data_length =>
      if data_length < cur_length then (bits, some .DataTooLong)
      else
        let ts := min terminator_size (data_length - cur_length)
        let b1 := if 0 < ts then bits.push_number ts 0 else bits
        let b2 :=
          if b1.len < data_length then
            let b1' := { b1 with bit_offset := 0 }
            let data_bytes_length := data_length / 8
            let padding_bytes_count := data_bytes_length - b1'.data.length
            { b1' with data := b1'.data ++ paddingBytes padding_bytes_count }
          else b1
        let b3 :=
          if b2.len < data_length then { b2 with data := b2.data ++ [0] }
          else b2
        (b3, none)

/-- The binary-search loop of `find_min_version` in `bits.rs`. -/
def fmvLoop (ec_level : EcLevel) (length base size : Nat) : Nat :=
  if 1 < size then
    let half := size / 2
    let mid := base + half
    let base' := if length < capAt mid ec_level then base else mid
    fmvLoop ec_level length base' (size - half)
  else base
termination_by size
decreasing_by omega

/-- `find_min_version` of `bits.rs`. -/
def find_min_version (length : Nat) (ec_level : EcLevel) : Version :=
  let base := fmvLoop ec_level length 0 39
  let base' := if length ≤ capAt base ec_level then base else base + 1
  .Normal (base' + 1)

/-- Modelled from the spec: the `coding` module (`Parser`, `Optimizer`,
`Segment`, `total_encoded_len`), which `bits.rs` imports, is not among the
provided sources.  An argument `optLen : Version → Nat` stands for the
composite `total_encoded_len(&opt_segments, version)` where `opt_segments`
is the optimizer output for the (fixed) input data at `version` — per the
spec, the minimal total encoded length of the data under that version's
length-field regime.  This function is the version-selection logic of
`encode_auto` in `bits.rs`: try the representative Normal versions 9, 26,
40 in order and return `find_min_version` of the first fitting total
length. -/
def encodeAutoGo (optLen : Version → Nat) (ec_level : EcLevel) :
    List Nat → Except QrError Version
  | [] => .error .DataTooLong
  | v :: rest =>
      let version := Version.Normal v
      let total_len := optLen version
      let data_capacity := capAt (v - 1) ec_level
      if total_len ≤ data_capacity then .ok (find_min_version total_len ec_level)
      else encodeAutoGo optLen ec_level rest

/-- The version chosen by `encode_auto` of `bits.rs` (see `encodeAutoGo`). -/
def encode_auto_version (optLen : Version → Nat) (ec_level : EcLevel) :
    Except QrError Version :=
  encodeAutoGo optLen ec_level [9, 26, 40]

/-- `RmqrStrategy` of `bits.rs`. -/
inductive RmqrStrategy where
  | Width
  | Height
  | Area
deriving DecidableEq, Repr

/-- The inner `for height in Version::rmqr_all_height()` loop of
`encode_auto_rmqr`: skip invalid `(h, w)` pairs, propagate `fetch` errors
(the `?` operator), and stop at the first fitting height. -/
def rmqrInnerLoop (optLen : Version → Nat) (ec_level : EcLevel) (w : Nat) :
    List Nat → Except QrError (Option Version)
  | [] => .ok none
  | h :: rest =>
      let version := Version.Rmqr h w
      if version.is_rmqr then
        match version.fetch ec_level with
        | .error e => .error e
        | .ok data_capacity =>
            if optLen version ≤ data_capacity then .ok (some version)
            else rmqrInnerLoop optLen ec_level w rest
      else rmqrInnerLoop optLen ec_level w rest

/-- The outer `for width in Version::rmqr_all_width()` loop of
`encode_auto_rmqr`, collecting `possible_versions` in width order. -/
def rmqrOuterLoop (optLen : Version → Nat) (ec_level : EcLevel) :
    List Nat → Except QrError (List Version)
  | [] => .ok []
  | w :: rest =>
      match rmqrInnerLoop optLen ec_level w rmqr_all_height with
      | .error e => .error e
      | .ok none => rmqrOuterLoop optLen ec_level rest
      | .ok (some v) =>
          match rmqrOuterLoop optLen ec_level rest with
          | .error e => .error e
          | .ok vs => .ok (v :: vs)

/-- Modelled from the spec: as with `encode_auto_version`, `optLen`
abstracts the missing `coding` module.  This is the version-selection logic
of `encode_auto_rmqr` in `bits.rs`: enumerate candidates, then pick by
strategy (`min_by_key` keeps the first minimum, as `List.argmin` does). -/
def encode_auto_rmqr_version (optLen : Version → Nat) (ec_level : EcLevel)
    (strategy : RmqrStrategy) : Except QrError Version :=
  match rmqrOuterLoop optLen ec_level rmqr_all_width with
  | .error e => .error e
  | .ok possible_versions =>
      let min_version : Option Version :=
        match strategy with
        | .Width => possible_versions.head?
        | .Height => possible_versions.argmin Version.height
        | .Area => possible_versions.argmin Version.area
      match min_version with
      | some v => .ok v
      | none => .error .DataTooLong

/-- Well-formedness of a `Bits` state: the bit offset is a bit position
inside the last byte, a nonzero offset implies a last byte exists, and the
last byte has exactly `bit_offset` meaningful high bits (its low
`8 - bit_offset` bits are zero). -/
def Bits.wf (bits : Bits) : Prop :=
  bits.bit_offset < 8 ∧ (bits.bit_offset ≠ 0 → bits.data ≠ []) ∧
    (bits.bit_offset ≠ 0 →
      bits.data.getLastD 0 % 2 ^ (8 - bits.bit_offset) = 0)

/-- States reachable from `Bits::new` through the public push operations
(on an error the Rust receiver keeps its partially updated state, hence
`.1` in every case). -/
inductive Reachable : Bits → Prop where
  | new (v : Version) : Reachable (Bits.new v)
  | push_number_checked (b : Bits) (n number : Nat) :
      Reachable b → Reachable (b.push_number_checked n number).1
  | push_mode_indicator (b : Bits) (m : Mode) :
      Reachable b → Reachable (b.push_mode_indicator m).1
  | push_numeric_data (b : Bits) (d : List Nat) :
      Reachable b → Reachable (b.push_numeric_data d).1
  | push_alphanumeric_data (b : Bits) (d : List Nat) :
      Reachable b → Reachable (b.push_alphanumeric_data d).1
  | push_byte_data (b : Bits) (d : List Nat) :
      Reachable b → Reachable (b.push_byte_data d).1
  | push_kanji_data (b : Bits) (d : List Nat) :
      Reachable b → Reachable (b.push_kanji_data d).1
  | push_terminator (b : Bits) (ec : EcLevel) :
      Reachable b → Reachable (b.push_terminator ec).1

/-- Spec-side alphabet of alphanumeric mode: `0-9`, `A-Z`, space and
`$ % * + - . / :` (claim C3's character set). -/
def isAlphanumericChar (c : Nat) : Bool :=
  (48 ≤ c && c ≤ 57) || (65 ≤ c && c ≤ 90) ||
    c ∈ [32, 36, 37, 42, 43, 45, 46, 47, 58]

/-- Spec-side list of the 32 standardized rMQR `(height, width)` pairs. -/
def validRmqrPairs : List (Nat × Nat) :=
  [(7, 43), (7, 59), (7, 77), (7, 99), (7, 139),
   (9, 43), (9, 59), (9, 77), (9, 99), (9, 139),
   (11, 27), (11, 43), (11, 59), (11, 77), (11, 99), (11, 139),
   (13, 27), (13, 43), (13, 59), (13, 77), (13, 99), (13, 139),
   (15, 43), (15, 59), (15, 77), (15, 99), (15, 139),
   (17, 43), (17, 59), (17, 77), (17, 99), (17, 139)]

/-- Spec-side characterization of the standardized `(version, ec_level)`
combinations (claim C7): every Normal version 1..=40 at all four levels,
the Micro combinations with a nonzero table entry, and the 32 rMQR pairs at
levels M and H only. -/
def Standardized : Version → EcLevel → Prop
  | .Normal v, _ => 1 ≤ v ∧ v ≤ 40
  | .Micro v, ec =>
      (v, ec) ∈ ([(1, .L), (2, .L), (2, .M), (3, .L), (3, .M),
                  (4, .L), (4, .M), (4, .Q)] : List (Nat × EcLevel))
  | .Rmqr h w, ec => (h, w) ∈ validRmqrPairs ∧ (ec = .M ∨ ec = .H)

/-- Spec-side partial order on modes (claim C8): Numeric ≤ Alphanumeric ≤
Byte and Kanji ≤ Byte, with Alphanumeric and Kanji incomparable. -/
def ModeLe (a b : Mode) : Prop :=
  a = b ∨ (a = .Numeric ∧ b = .Alphanumeric) ∨ (a = .Numeric ∧ b = .Byte) ∨
    (a = .Alphanumeric ∧ b = .Byte) ∨ (a = .Kanji ∧ b = .Byte)

instance (v : Version) (ec : EcLevel) : Decidable (Standardized v ec) :=
  match v with
  | .Normal n => inferInstanceAs (Decidable (1 ≤ n ∧ n ≤ 40))
  | .Micro n =>
      inferInstanceAs (Decidable ((n, ec) ∈
        ([(1, .L), (2, .L), (2, .M), (3, .L), (3, .M),
          (4, .L), (4, .M), (4, .Q)] : List (Nat × EcLevel))))
  | .Rmqr hh ww =>
      inferInstanceAs (Decidable ((hh, ww) ∈ validRmqrPairs ∧
        (ec = .M ∨ ec = .H)))

instance (a b : Mode) : Decidable (ModeLe a b) := by
  unfold ModeLe
  infer_instance

/-- A version fits the (abstracted) optimized encoding at `ec_level`: its
tabulated data capacity is at least `optLen` of the version. -/
def Fits (optLen : Version → Nat) (ec_level : EcLevel) (v : Version) : Prop :=
  match v.fetch ec_level with
  | .ok c => optLen v ≤ c
  | .error _ => False

/-- Length-field regime of a Normal version number: the widths change at
versions 10 and 27. -/
def regime (n : Nat) : Nat :=
  if n ≤ 9 then 0 else if n ≤ 26 then 1 else 2

/-- Bits contributed by a trailing numeric group of `r` digits (`r < 3`):
none, 4 bits, or 7 bits. -/
def numericTrailingBits (r : Nat) : Nat :=
  if r = 0 then 0 else if r = 1 then 4 else 7

/-- Bits contributed by a trailing alphanumeric group of `r` characters
(`r < 2`): none or 6 bits. -/
def alnumTrailingBits (r : Nat) : Nat :=
  if r = 0 then 0 else 6

/-! ### Bit-arithmetic helper lemmas -/

theorem testBit_eq_false_of_mod {a k i : Nat} (h : a % 2 ^ k = 0) (hik : i < k) :
    a.testBit i = false := by
  have h1 : (a % 2 ^ k).testBit i = a.testBit i := by
    rw [Nat.testBit_mod_two_pow]
    simp [hik]
  rw [h, Nat.zero_testBit] at h1
  exact h1.symm

theorem lor_mod_two_pow {a c k : Nat} (ha : a % 2 ^ k = 0) (hc : c % 2 ^ k = 0) :
    (a ||| c) % 2 ^ k = 0 := by
  apply Nat.eq_of_testBit_eq
  intro i
  rw [Nat.testBit_mod_two_pow, Nat.zero_testBit]
  rcases Nat.lt_or_ge i k with hik | hik
  · simp [Nat.testBit_lor, testBit_eq_false_of_mod ha hik,
      testBit_eq_false_of_mod hc hik]
  · simp [Nat.not_lt.mpr hik]

theorem mod_pow_zero_mono {a k j : Nat} (h : a % 2 ^ k = 0) (hjk : j ≤ k) :
    a % 2 ^ j = 0 := by
  have hd : (2 : Nat) ^ j ∣ 2 ^ k := Nat.pow_dvd_pow 2 hjk
  have hk : (2 : Nat) ^ k ∣ a := Nat.dvd_of_mod_eq_zero h
  exact Nat.mod_eq_zero_of_dvd (dvd_trans hd hk)

theorem shifted_byte_mod (number : Nat) {m j : Nat} (hj : j ≤ m) (hm : m ≤ 8) :
    number * 2 ^ m % 256 % 2 ^ j = 0 := by
  have h256 : (256 : Nat) = 2 ^ 8 := by norm_num
  have h1 : (2 : Nat) ^ j ∣ 2 ^ 8 := Nat.pow_dvd_pow 2 (by omega)
  rw [h256, Nat.mod_mod_of_dvd _ h1]
  have h2 : (2 : Nat) ^ j ∣ number * 2 ^ m :=
    Dvd.dvd.mul_left (Nat.pow_dvd_pow 2 hj) number
  exact Nat.mod_eq_zero_of_dvd h2

/-! ### `orLast` and `getLastD` helper lemmas -/

theorem orLast_length (l : List Nat) (x : Nat) : (orLast l x).length = l.length := by
  induction l with
  | nil => rfl
  | cons a rest ih =>
      cases rest with
      | nil => rfl
      | cons b rest2 => simpa [orLast] using ih

theorem orLast_ne_nil {l : List Nat} (x : Nat) (h : l ≠ []) : orLast l x ≠ [] := by
  intro hc
  have := orLast_length l x
  rw [hc] at this
  exact h (List.eq_nil_of_length_eq_zero this.symm)

theorem getLastD_irrel {l : List Nat} (h : l ≠ []) (d : Nat) :
    l.getLastD d = l.getLastD 0 := by
  cases hl : l.getLast? with
  | none => exact absurd (List.getLast?_eq_none_iff.mp hl) h
  | some y => simp [List.getLastD_eq_getLast?, hl]

theorem orLast_getLastD {l : List Nat} (x : Nat) (h : l ≠ []) :
    (orLast l x).getLastD 0 = (l.getLastD 0) ||| x := by
  induction l with
  | nil => exact absurd rfl h
  | cons a rest ih =>
      cases rest with
      | nil => rfl
      | cons b rest2 =>
          have h2 : b :: rest2 ≠ [] := by simp
          have h3 : orLast (b :: rest2) x ≠ [] := orLast_ne_nil x h2
          have e0 : orLast (a :: b :: rest2) x = a :: orLast (b :: rest2) x := rfl
          rw [e0, List.getLastD_cons 0 a (orLast (b :: rest2) x),
            getLastD_irrel h3 a, ih h2,
            List.getLastD_cons 0 a (b :: rest2), getLastD_irrel h2 a]

theorem getLastD_append_single (l : List Nat) (x : Nat) :
    (l ++ [x]).getLastD 0 = x :=
  List.getLastD_concat _ _ _

theorem getLastD_append_pair (l : List Nat) (y x : Nat) :
    (l ++ [y, x]).getLastD 0 = x := by
  have : l ++ [y, x] = (l ++ [y]) ++ [x] := by simp
  rw [this]
  exact List.getLastD_concat _ _ _

/-! ### Well-formedness of `Bits` states -/

theorem wf_new (v : Version) : (Bits.new v).wf := by
  refine ⟨by norm_num [Bits.new], by simp [Bits.new], by simp [Bits.new]⟩

theorem data_length_of_wf {b : Bits} (hwf : b.wf) :
    b.data.length = (b.len + 7) / 8 := by
  obtain ⟨ho8, hne, -⟩ := hwf
  by_cases h0 : b.bit_offset = 0
  · simp [Bits.len, h0]
    omega
  · have hlen : 1 ≤ b.data.length := by
      have := hne h0
      cases hd : b.data with
      | nil => exact absurd hd this
      | cons a rest => simp [hd]
    simp [Bits.len, h0]
    omega

theorem push_number_spec (b : Bits) (n number : Nat) (hwf : b.wf) (hn : n ≤ 16) :
    (b.push_number n number).wf ∧ (b.push_number n number).version = b.version ∧
      (b.push_number n number).len =
        b.len + (if b.bit_offset + n = 0 then 8 else n) := by
  obtain ⟨ho8, hne, hlow⟩ := hwf
  simp only [Bits.push_number]
  by_cases h0 : b.bit_offset = 0
  · by_cases h1 : b.bit_offset + n ≤ 8
    · rw [if_pos h0, if_pos h1]
      refine ⟨⟨by dsimp; omega, by simp, ?_⟩, rfl, ?_⟩
      · intro hs
        dsimp at hs ⊢
        rw [getLastD_append_single]
        have hmod : (b.bit_offset + n) % 8 = b.bit_offset + n := by omega
        rw [hmod]
        exact shifted_byte_mod number (le_refl _) (by omega)
      · simp only [Bits.len]
        rw [List.length_append]
        split_ifs <;> simp_all <;> omega
    · rw [if_pos h0, if_neg h1]
      refine ⟨⟨by dsimp; omega, by simp, ?_⟩, rfl, ?_⟩
      · intro hs
        dsimp at hs ⊢
        rw [getLastD_append_pair]
        have hmod : (b.bit_offset + n) % 8 = b.bit_offset + n - 8 := by omega
        rw [hmod]
        have he : 8 - (b.bit_offset + n - 8) = 16 - (b.bit_offset + n) := by omega
        rw [he]
        exact shifted_byte_mod number (le_refl _) (by omega)
      · simp only [Bits.len]
        rw [List.length_append]
        split_ifs <;> simp_all <;> omega
  · have hnil : b.data ≠ [] := hne h0
    have hd1 : 1 ≤ b.data.length := List.length_pos.mpr hnil
    by_cases h1 : b.bit_offset + n ≤ 8
    · rw [if_neg h0, if_pos h1]
      refine ⟨⟨by dsimp; omega, fun _ => orLast_ne_nil _ hnil, ?_⟩, rfl, ?_⟩
      · intro hs
        dsimp at hs ⊢
        rw [orLast_getLastD _ hnil]
        have hmod : (b.bit_offset + n) % 8 = b.bit_offset + n := by omega
        rw [hmod]
        refine lor_mod_two_pow ?_ ?_
        · exact mod_pow_zero_mono (hlow h0) (by omega)
        · exact shifted_byte_mod number (le_refl _) (by omega)
      · simp only [Bits.len]
        rw [orLast_length]
        split_ifs <;> simp_all <;> omega
    · by_cases h2 : b.bit_offset + n ≤ 16
      · rw [if_neg h0, if_neg h1, if_pos h2]
        refine ⟨⟨by dsimp; omega, by simp, ?_⟩, rfl, ?_⟩
        · intro hs
          dsimp at hs ⊢
          rw [getLastD_append_single]
          have hmod : (b.bit_offset + n) % 8 = b.bit_offset + n - 8 := by omega
          rw [hmod]
          have he : 8 - (b.bit_offset + n - 8) = 16 - (b.bit_offset + n) := by omega
          rw [he]
          exact shifted_byte_mod number (le_refl _) (by omega)
        · simp only [Bits.len]
          rw [List.length_append, orLast_length]
          split_ifs <;> simp_all <;> omega
      · rw [if_neg h0, if_neg h1, if_neg h2]
        refine ⟨⟨by dsimp; omega, by simp, ?_⟩, rfl, ?_⟩
        · intro hs
          dsimp at hs ⊢
          rw [getLastD_append_pair]
          have hmod : (b.bit_offset + n) % 8 = b.bit_offset + n - 16 := by omega
          rw [hmod]
          have he : 8 - (b.bit_offset + n - 16) = 24 - (b.bit_offset + n) := by omega
          rw [he]
          exact shifted_byte_mod number (le_refl _) (by omega)
        · simp only [Bits.len]
          rw [List.length_append, orLast_length]
          split_ifs <;> simp_all <;> omega

theorem push_number_checked_spec (b : Bits) (n number : Nat) (hwf : b.wf) :
    (b.push_number_checked n number).1.wf ∧
    (b.push_number_checked n number).1.version = b.version ∧
    b.len ≤ (b.push_number_checked n number).1.len ∧
    ((b.push_number_checked n number).2 = none →
      n ≤ 16 ∧ number < 2 ^ n ∧
      (b.push_number_checked n number).1 = b.push_number n number ∧
      (b.push_number_checked n number).1.len =
        b.len + (if b.bit_offset + n = 0 then 8 else n)) ∧
    ((b.push_number_checked n number).2 ≠ none →
      (b.push_number_checked n number).1 = b ∧
      (b.push_number_checked n number).2 = some .DataTooLong) := by
  unfold Bits.push_number_checked
  by_cases h : 16 < n ∨ 2 ^ n ≤ number
  · rw [if_pos h]
    exact ⟨hwf, rfl, le_refl _, fun hc => by simp at hc, fun _ => ⟨rfl, rfl⟩⟩
  · rw [if_neg h]
    push_neg at h
    obtain ⟨hn, hnum⟩ := h
    obtain ⟨hwf2, hver, hlen⟩ := push_number_spec b n number hwf hn
    refine ⟨hwf2, hver, ?_, fun _ => ⟨hn, hnum, rfl, hlen⟩,
      fun hc => by simp at hc⟩
    rw [show (b.push_number n number, (none : Option QrError)).1 =
      b.push_number n number from rfl, hlen]
    split_ifs <;> omega

theorem push_mode_indicator_spec (b : Bits) (m : Mode) (hwf : b.wf) :
    (b.push_mode_indicator m).1.wf ∧
    (b.push_mode_indicator m).1.version = b.version ∧
    b.len ≤ (b.push_mode_indicator m).1.len ∧
    ((b.push_mode_indicator m).2 = none →
      ((b.push_mode_indicator m).1.len = b.len + b.version.mode_bits_count ∧
        b.version.mode_bits_count ≤ 16) ∨
        ∃ a, b.version = .Micro a ∧ 257 ≤ a) ∧
    ((b.push_mode_indicator m).2 ≠ none → (b.push_mode_indicator m).1 = b) ∧
    (∀ e, (b.push_mode_indicator m).2 = some e →
      e = .UnsupportedCharacterSet) := by
  have main : ∀ number : Nat,
      (b.version.mode_bits_count = 0 → number = 0 →
        ∃ a, b.version = .Micro a ∧ 257 ≤ a) →
      ∀ r : Bits × Option QrError,
        r = (let r0 := b.push_number_checked b.version.mode_bits_count number
             (r0.1, r0.2.map fun _ => QrError.UnsupportedCharacterSet)) →
      r.1.wf ∧ r.1.version = b.version ∧ b.len ≤ r.1.len ∧
      (r.2 = none →
        (r.1.len = b.len + b.version.mode_bits_count ∧
          b.version.mode_bits_count ≤ 16) ∨
          ∃ a, b.version = .Micro a ∧ 257 ≤ a) ∧
      (r.2 ≠ none → r.1 = b) ∧
      (∀ e, r.2 = some e → e = .UnsupportedCharacterSet) := by
    intro number hz r hr
    obtain ⟨hwf2, hver, hmono, hok, herr⟩ :=
      push_number_checked_spec b b.version.mode_bits_count number hwf
    rcases hck : b.push_number_checked b.version.mode_bits_count number with ⟨b1, e⟩
    rw [hck] at hwf2 hver hmono hok herr hr
    subst hr
    cases e with
    | none =>
        obtain ⟨h16, hlt, -, hlen⟩ := hok rfl
        refine ⟨hwf2, hver, hmono, fun _ => ?_, fun hc => absurd rfl hc,
          fun e hc => by simp at hc⟩
        by_cases hbz : b.bit_offset + b.version.mode_bits_count = 0
        · right
          have hm0 : b.version.mode_bits_count = 0 := by omega
          have hn0 : number = 0 := by
            rw [hm0] at hlt
            omega
          exact hz hm0 hn0
        · left
          rw [hlen, if_neg hbz]
          exact ⟨rfl, h16⟩
    | some e' =>
        obtain ⟨hst, -⟩ := herr (by simp)
        refine ⟨hwf2, hver, hmono, fun hc => by simp at hc, fun _ => hst,
          fun e hc => ?_⟩
        simp only [Option.map_some] at hc
        injection hc with hc2
        exact hc2.symm
  obtain ⟨data, off, ver⟩ := b
  cases ver with
  | Normal v =>
      cases m <;>
        exact main _ (fun h0 _ => by simp [Version.mode_bits_count] at h0) _ rfl
  | Rmqr hh ww =>
      cases m <;>
        exact main _ (fun h0 _ => by simp [Version.mode_bits_count] at h0) _ rfl
  | Micro a =>
      rcases a with - | a
      · cases m <;>
          exact main _ (fun h0 _ => by simp [Version.mode_bits_count] at h0) _ rfl
      · rcases a with - | a
        · cases m with
          | Numeric =>
              refine ⟨hwf, rfl, le_refl _, fun _ => ?_, fun hc => absurd rfl hc,
                fun e hc => by simp [Bits.push_mode_indicator] at hc⟩
              left
              simp [Bits.push_mode_indicator, Version.mode_bits_count]
          | Alphanumeric => exact main 1 (fun h0 hn => by omega) _ rfl
          | Byte => exact main 2 (fun h0 hn => by omega) _ rfl
          | Kanji => exact main 3 (fun h0 hn => by omega) _ rfl
        · have hcorner : (Version.Micro (a + 1 + 1)).mode_bits_count = 0 → (0 : Nat) = 0 →
              ∃ x, Version.Micro (a + 1 + 1) = Version.Micro x ∧ 257 ≤ x := by
            intro h0 _
            have h1 : (a + 1 + 1 + 255) % 256 = 0 := by
              simpa [Version.mode_bits_count] using h0
            exact ⟨a + 1 + 1, rfl, by omega⟩
          cases m with
          | Numeric => exact main 0 hcorner _ rfl
          | Alphanumeric => exact main 1 (fun h0 hn => by omega) _ rfl
          | Byte => exact main 2 (fun h0 hn => by omega) _ rfl
          | Kanji => exact main 3 (fun h0 hn => by omega) _ rfl

theorem rmqr_index_rmqr (h w : Nat) :
    (Version.Rmqr h w).rmqr_index = rmqrPairIndex h w := rfl

theorem rmqrPairIndex_cases (h w : Nat) :
    (rmqrPairIndex h w = .error .InvalidVersion ∧ (h, w) ∉ validRmqrPairs) ∨
    ∃ i, rmqrPairIndex h w = .ok i ∧ i < 32 ∧ (h, w) ∈ validRmqrPairs := by
  rw [rmqrPairIndex]
  by_cases c1 : h = 7 ∧ w = 43
  · rw [if_pos c1]
    right
    refine ⟨0, rfl, by omega, ?_⟩
    obtain ⟨e1, e2⟩ := c1
    subst e1
    subst e2
    decide
  · rw [if_neg c1]
    by_cases c2 : h = 7 ∧ w = 59
    · rw [if_pos c2]
      right
      refine ⟨1, rfl, by omega, ?_⟩
      obtain ⟨e1, e2⟩ := c2
      subst e1
      subst e2
      decide
    · rw [if_neg c2]
      by_cases c3 : h = 7 ∧ w = 77
      · rw [if_pos c3]
        right
        refine ⟨2, rfl, by omega, ?_⟩
        obtain ⟨e1, e2⟩ := c3
        subst e1
        subst e2
        decide
      · rw [if_neg c3]
        by_cases c4 : h = 7 ∧ w = 99
        · rw [if_pos c4]
          right
          refine ⟨3, rfl, by omega, ?_⟩
          obtain ⟨e1, e2⟩ := c4
          subst e1
          subst e2
          decide
        · rw [if_neg c4]
          by_cases c5 : h = 7 ∧ w = 139
          · rw [if_pos c5]
            right
            refine ⟨4, rfl, by omega, ?_⟩
            obtain ⟨e1, e2⟩ := c5
            subst e1
            subst e2
            decide
          · rw [if_neg c5]
            by_cases c6 : h = 9 ∧ w = 43
            · rw [if_pos c6]
              right
              refine ⟨5, rfl, by omega, ?_⟩
              obtain ⟨e1, e2⟩ := c6
              subst e1
              subst e2
              decide
            · rw [if_neg c6]
              by_cases c7 : h = 9 ∧ w = 59
              · rw [if_pos c7]
                right
                refine ⟨6, rfl, by omega, ?_⟩
                obtain ⟨e1, e2⟩ := c7
                subst e1
                subst e2
                decide
              · rw [if_neg c7]
                by_cases c8 : h = 9 ∧ w = 77
                · rw [if_pos c8]
                  right
                  refine ⟨7, rfl, by omega, ?_⟩
                  obtain ⟨e1, e2⟩ := c8
                  subst e1
                  subst e2
                  decide
                · rw [if_neg c8]
                  by_cases c9 : h = 9 ∧ w = 99
                  · rw [if_pos c9]
                    right
                    refine ⟨8, rfl, by omega, ?_⟩
                    obtain ⟨e1, e2⟩ := c9
                    subst e1
                    subst e2
                    decide
                  · rw [if_neg c9]
                    by_cases c10 : h = 9 ∧ w = 139
                    · rw [if_pos c10]
                      right
                      refine ⟨9, rfl, by omega, ?_⟩
                      obtain ⟨e1, e2⟩ := c10
                      subst e1
                      subst e2
                      decide
                    · rw [if_neg c10]
                      by_cases c11 : h = 11 ∧ w = 27
                      · rw [if_pos c11]
                        right
                        refine ⟨10, rfl, by omega, ?_⟩
                        obtain ⟨e1, e2⟩ := c11
                        subst e1
                        subst e2
                        decide
                      · rw [if_neg c11]
                        by_cases c12 : h = 11 ∧ w = 43
                        · rw [if_pos c12]
                          right
                          refine ⟨11, rfl, by omega, ?_⟩
                          obtain ⟨e1, e2⟩ := c12
                          subst e1
                          subst e2
                          decide
                        · rw [if_neg c12]
                          by_cases c13 : h = 11 ∧ w = 59
                          · rw [if_pos c13]
                            right
                            refine ⟨12, rfl, by omega, ?_⟩
                            obtain ⟨e1, e2⟩ := c13
                            subst e1
                            subst e2
                            decide
                          · rw [if_neg c13]
                            by_cases c14 : h = 11 ∧ w = 77
                            · rw [if_pos c14]
                              right
                              refine ⟨13, rfl, by omega, ?_⟩
                              obtain ⟨e1, e2⟩ := c14
                              subst e1
                              subst e2
                              decide
                            · rw [if_neg c14]
                              by_cases c15 : h = 11 ∧ w = 99
                              · rw [if_pos c15]
                                right
                                refine ⟨14, rfl, by omega, ?_⟩
                                obtain ⟨e1, e2⟩ := c15
                                subst e1
                                subst e2
                                decide
                              · rw [if_neg c15]
                                by_cases c16 : h = 11 ∧ w = 139
                                · rw [if_pos c16]
                                  right
                                  refine ⟨15, rfl, by omega, ?_⟩
                                  obtain ⟨e1, e2⟩ := c16
                                  subst e1
                                  subst e2
                                  decide
                                · rw [if_neg c16]
                                  by_cases c17 : h = 13 ∧ w = 27
                                  · rw [if_pos c17]
                                    right
                                    refine ⟨16, rfl, by omega, ?_⟩
                                    obtain ⟨e1, e2⟩ := c17
                                    subst e1
                                    subst e2
                                    decide
                                  · rw [if_neg c17]
                                    by_cases c18 : h = 13 ∧ w = 43
                                    · rw [if_pos c18]
                                      right
                                      refine ⟨17, rfl, by omega, ?_⟩
                                      obtain ⟨e1, e2⟩ := c18
                                      subst e1
                                      subst e2
                                      decide
                                    · rw [if_neg c18]
                                      by_cases c19 : h = 13 ∧ w = 59
                                      · rw [if_pos c19]
                                        right
                                        refine ⟨18, rfl, by omega, ?_⟩
                                        obtain ⟨e1, e2⟩ := c19
                                        subst e1
                                        subst e2
                                        decide
                                      · rw [if_neg c19]
                                        by_cases c20 : h = 13 ∧ w = 77
                                        · rw [if_pos c20]
                                          right
                                          refine ⟨19, rfl, by omega, ?_⟩
                                          obtain ⟨e1, e2⟩ := c20
                                          subst e1
                                          subst e2
                                          decide
                                        · rw [if_neg c20]
                                          by_cases c21 : h = 13 ∧ w = 99
                                          · rw [if_pos c21]
                                            right
                                            refine ⟨20, rfl, by omega, ?_⟩
                                            obtain ⟨e1, e2⟩ := c21
                                            subst e1
                                            subst e2
                                            decide
                                          · rw [if_neg c21]
                                            by_cases c22 : h = 13 ∧ w = 139
                                            · rw [if_pos c22]
                                              right
                                              refine ⟨21, rfl, by omega, ?_⟩
                                              obtain ⟨e1, e2⟩ := c22
                                              subst e1
                                              subst e2
                                              decide
                                            · rw [if_neg c22]
                                              by_cases c23 : h = 15 ∧ w = 43
                                              · rw [if_pos c23]
                                                right
                                                refine ⟨22, rfl, by omega, ?_⟩
                                                obtain ⟨e1, e2⟩ := c23
                                                subst e1
                                                subst e2
                                                decide
                                              · rw [if_neg c23]
                                                by_cases c24 : h = 15 ∧ w = 59
                                                · rw [if_pos c24]
                                                  right
                                                  refine ⟨23, rfl, by omega, ?_⟩
                                                  obtain ⟨e1, e2⟩ := c24
                                                  subst e1
                                                  subst e2
                                                  decide
                                                · rw [if_neg c24]
                                                  by_cases c25 : h = 15 ∧ w = 77
                                                  · rw [if_pos c25]
                                                    right
                                                    refine ⟨24, rfl, by omega, ?_⟩
                                                    obtain ⟨e1, e2⟩ := c25
                                                    subst e1
                                                    subst e2
                                                    decide
                                                  · rw [if_neg c25]
                                                    by_cases c26 : h = 15 ∧ w = 99
                                                    · rw [if_pos c26]
                                                      right
                                                      refine ⟨25, rfl, by omega, ?_⟩
                                                      obtain ⟨e1, e2⟩ := c26
                                                      subst e1
                                                      subst e2
                                                      decide
                                                    · rw [if_neg c26]
                                                      by_cases c27 : h = 15 ∧ w = 139
                                                      · rw [if_pos c27]
                                                        right
                                                        refine ⟨26, rfl, by omega, ?_⟩
                                                        obtain ⟨e1, e2⟩ := c27
                                                        subst e1
                                                        subst e2
                                                        decide
                                                      · rw [if_neg c27]
                                                        by_cases c28 : h = 17 ∧ w = 43
                                                        · rw [if_pos c28]
                                                          right
                                                          refine ⟨27, rfl, by omega, ?_⟩
                                                          obtain ⟨e1, e2⟩ := c28
                                                          subst e1
                                                          subst e2
                                                          decide
                                                        · rw [if_neg c28]
                                                          by_cases c29 : h = 17 ∧ w = 59
                                                          · rw [if_pos c29]
                                                            right
                                                            refine ⟨28, rfl, by omega, ?_⟩
                                                            obtain ⟨e1, e2⟩ := c29
                                                            subst e1
                                                            subst e2
                                                            decide
                                                          · rw [if_neg c29]
                                                            by_cases c30 : h = 17 ∧ w = 77
                                                            · rw [if_pos c30]
                                                              right
                                                              refine ⟨29, rfl, by omega, ?_⟩
                                                              obtain ⟨e1, e2⟩ := c30
                                                              subst e1
                                                              subst e2
                                                              decide
                                                            · rw [if_neg c30]
                                                              by_cases c31 : h = 17 ∧ w = 99
                                                              · rw [if_pos c31]
                                                                right
                                                                refine ⟨30, rfl, by omega, ?_⟩
                                                                obtain ⟨e1, e2⟩ := c31
                                                                subst e1
                                                                subst e2
                                                                decide
                                                              · rw [if_neg c31]
                                                                by_cases c32 : h = 17 ∧ w = 139
                                                                · rw [if_pos c32]
                                                                  right
                                                                  refine ⟨31, rfl, by omega, ?_⟩
                                                                  obtain ⟨e1, e2⟩ := c32
                                                                  subst e1
                                                                  subst e2
                                                                  decide
                                                                · rw [if_neg c32]
                                                                  left
                                                                  refine ⟨rfl, fun hmem => ?_⟩
                                                                  rw [validRmqrPairs] at hmem
                                                                  rcases List.mem_cons.mp hmem with he | hmem
                                                                  · exact c1 ⟨congrArg Prod.fst he, congrArg Prod.snd he⟩
                                                                  rcases List.mem_cons.mp hmem with he | hmem
                                                                  · exact c2 ⟨congrArg Prod.fst he, congrArg Prod.snd he⟩
                                                                  rcases List.mem_cons.mp hmem with he | hmem
                                                                  · exact c3 ⟨congrArg Prod.fst he, congrArg Prod.snd he⟩
                                                                  rcases List.mem_cons.mp hmem with he | hmem
                                                                  · exact c4 ⟨congrArg Prod.fst he, congrArg Prod.snd he⟩
                                                                  rcases List.mem_cons.mp hmem with he | hmem
                                                                  · exact c5 ⟨congrArg Prod.fst he, congrArg Prod.snd he⟩
                                                                  rcases List.mem_cons.mp hmem with he | hmem
                                                                  · exact c6 ⟨congrArg Prod.fst he, congrArg Prod.snd he⟩
                                                                  rcases List.mem_cons.mp hmem with he | hmem
                                                                  · exact c7 ⟨congrArg Prod.fst he, congrArg Prod.snd he⟩
                                                                  rcases List.mem_cons.mp hmem with he | hmem
                                                                  · exact c8 ⟨congrArg Prod.fst he, congrArg Prod.snd he⟩
                                                                  rcases List.mem_cons.mp hmem with he | hmem
                                                                  · exact c9 ⟨congrArg Prod.fst he, congrArg Prod.snd he⟩
                                                                  rcases List.mem_cons.mp hmem with he | hmem
                                                                  · exact c10 ⟨congrArg Prod.fst he, congrArg Prod.snd he⟩
                                                                  rcases List.mem_cons.mp hmem with he | hmem
                                                                  · exact c11 ⟨congrArg Prod.fst he, congrArg Prod.snd he⟩
                                                                  rcases List.mem_cons.mp hmem with he | hmem
                                                                  · exact c12 ⟨congrArg Prod.fst he, congrArg Prod.snd he⟩
                                                                  rcases List.mem_cons.mp hmem with he | hmem
                                                                  · exact c13 ⟨congrArg Prod.fst he, congrArg Prod.snd he⟩
                                                                  rcases List.mem_cons.mp hmem with he | hmem
                                                                  · exact c14 ⟨congrArg Prod.fst he, congrArg Prod.snd he⟩
                                                                  rcases List.mem_cons.mp hmem with he | hmem
                                                                  · exact c15 ⟨congrArg Prod.fst he, congrArg Prod.snd he⟩
                                                                  rcases List.mem_cons.mp hmem with he | hmem
                                                                  · exact c16 ⟨congrArg Prod.fst he, congrArg Prod.snd he⟩
                                                                  rcases List.mem_cons.mp hmem with he | hmem
                                                                  · exact c17 ⟨congrArg Prod.fst he, congrArg Prod.snd he⟩
                                                                  rcases List.mem_cons.mp hmem with he | hmem
                                                                  · exact c18 ⟨congrArg Prod.fst he, congrArg Prod.snd he⟩
                                                                  rcases List.mem_cons.mp hmem with he | hmem
                                                                  · exact c19 ⟨congrArg Prod.fst he, congrArg Prod.snd he⟩
                                                                  rcases List.mem_cons.mp hmem with he | hmem
                                                                  · exact c20 ⟨congrArg Prod.fst he, congrArg Prod.snd he⟩
                                                                  rcases List.mem_cons.mp hmem with he | hmem
                                                                  · exact c21 ⟨congrArg Prod.fst he, congrArg Prod.snd he⟩
                                                                  rcases List.mem_cons.mp hmem with he | hmem
                                                                  · exact c22 ⟨congrArg Prod.fst he, congrArg Prod.snd he⟩
                                                                  rcases List.mem_cons.mp hmem with he | hmem
                                                                  · exact c23 ⟨congrArg Prod.fst he, congrArg Prod.snd he⟩
                                                                  rcases List.mem_cons.mp hmem with he | hmem
                                                                  · exact c24 ⟨congrArg Prod.fst he, congrArg Prod.snd he⟩
                                                                  rcases List.mem_cons.mp hmem with he | hmem
                                                                  · exact c25 ⟨congrArg Prod.fst he, congrArg Prod.snd he⟩
                                                                  rcases List.mem_cons.mp hmem with he | hmem
                                                                  · exact c26 ⟨congrArg Prod.fst he, congrArg Prod.snd he⟩
                                                                  rcases List.mem_cons.mp hmem with he | hmem
                                                                  · exact c27 ⟨congrArg Prod.fst he, congrArg Prod.snd he⟩
                                                                  rcases List.mem_cons.mp hmem with he | hmem
                                                                  · exact c28 ⟨congrArg Prod.fst he, congrArg Prod.snd he⟩
                                                                  rcases List.mem_cons.mp hmem with he | hmem
                                                                  · exact c29 ⟨congrArg Prod.fst he, congrArg Prod.snd he⟩
                                                                  rcases List.mem_cons.mp hmem with he | hmem
                                                                  · exact c30 ⟨congrArg Prod.fst he, congrArg Prod.snd he⟩
                                                                  rcases List.mem_cons.mp hmem with he | hmem
                                                                  · exact c31 ⟨congrArg Prod.fst he, congrArg Prod.snd he⟩
                                                                  rcases List.mem_cons.mp hmem with he | hmem
                                                                  · exact c32 ⟨congrArg Prod.fst he, congrArg Prod.snd he⟩
                                                                  exact absurd hmem (List.not_mem_nil _)

theorem rmqr_index_lt_32 {h w i : Nat}
    (hok : (Version.Rmqr h w).rmqr_index = .ok i) : i < 32 := by
  rw [rmqr_index_rmqr] at hok
  rcases rmqrPairIndex_cases h w with ⟨he, -⟩ | ⟨j, hj, hjlt, -⟩
  · rw [he] at hok
    exact Except.noConfusion hok
  · rw [hj] at hok
    injection hok with h2
    omega

theorem rmqr_index_ok_of_mem {h w : Nat} (hmem : (h, w) ∈ validRmqrPairs) :
    ∃ i, (Version.Rmqr h w).rmqr_index = .ok i ∧ i < 32 := by
  rcases rmqrPairIndex_cases h w with ⟨-, hnm⟩ | ⟨j, hj, hjlt, -⟩
  · exact absurd hmem hnm
  · exact ⟨j, by rw [rmqr_index_rmqr, hj], hjlt⟩

theorem rmqr_index_mem_of_ok {h w i : Nat}
    (hok : (Version.Rmqr h w).rmqr_index = .ok i) : (h, w) ∈ validRmqrPairs := by
  rw [rmqr_index_rmqr] at hok
  rcases rmqrPairIndex_cases h w with ⟨he, -⟩ | ⟨j, hj, -, hm⟩
  · rw [he] at hok
    exact Except.noConfusion hok
  · exact hm

theorem rmqr_index_error_of_not_mem {h w : Nat}
    (hnm : (h, w) ∉ validRmqrPairs) :
    (Version.Rmqr h w).rmqr_index = .error .InvalidVersion := by
  rcases rmqrPairIndex_cases h w with ⟨he, -⟩ | ⟨j, hj, -, hm⟩
  · rw [rmqr_index_rmqr, he]
  · exact absurd hm hnm

theorem length_bits_count_pos (m : Mode) (v : Version)
    (h16 : v.mode_bits_count ≤ 16) : 1 ≤ m.length_bits_count v := by
  cases v with
  | Normal n =>
      cases m <;> simp only [Mode.length_bits_count] <;> split_ifs <;> simp
  | Rmqr hh ww =>
      have hrow : ∀ i < 32, 1 ≤ (RMQR_LENGTH_BITS_COUNT.getD i []).getD 0 0 ∧
          1 ≤ (RMQR_LENGTH_BITS_COUNT.getD i []).getD 1 0 ∧
          1 ≤ (RMQR_LENGTH_BITS_COUNT.getD i []).getD 2 0 ∧
          1 ≤ (RMQR_LENGTH_BITS_COUNT.getD i []).getD 3 0 := by decide
      rcases hidx : (Version.Rmqr hh ww).rmqr_index with e | i
      · cases m <;> simp only [Mode.length_bits_count, hidx] <;> decide
      · have hi := rmqr_index_lt_32 hidx
        obtain ⟨h0, h1, h2, h3⟩ := hrow i hi
        cases m <;> simp only [Mode.length_bits_count, hidx] <;> assumption
  | Micro a =>
      have ha : 1 ≤ a := by
        by_contra hc
        push_neg at hc
        interval_cases a
        simp [Version.mode_bits_count] at h16
      cases m <;> simp [Mode.length_bits_count] <;> omega

theorem push_header_spec (b : Bits) (m : Mode) (raw : Nat) (hwf : b.wf) :
    (b.push_header m raw).1.wf ∧
    (b.push_header m raw).1.version = b.version ∧
    b.len ≤ (b.push_header m raw).1.len ∧
    ((b.push_header m raw).2 = none →
      raw < 2 ^ (m.length_bits_count b.version) ∧
      m.length_bits_count b.version ≤ 16 ∧
      1 ≤ b.version.mode_bits_count + m.length_bits_count b.version ∧
      (b.push_header m raw).1.len =
        b.len + b.version.mode_bits_count + m.length_bits_count b.version) ∧
    (∀ e, (b.push_header m raw).2 = some e →
      e = .UnsupportedCharacterSet ∨ e = .DataTooLong) := by
  obtain ⟨hwf1, hver1, hmono1, hok1, herr1, herrval1⟩ :=
    push_mode_indicator_spec b m hwf
  unfold Bits.push_header
  rcases hmi : b.push_mode_indicator m with ⟨b1, e⟩
  rw [hmi] at hwf1 hver1 hmono1 hok1 herr1 herrval1
  cases e with
  | some e' =>
      refine ⟨hwf1, hver1, hmono1, fun hc => by simp at hc, fun e hc => ?_⟩
      have hc2 : some e' = some e := hc
      injection hc2 with hc3
      subst hc3
      exact Or.inl (herrval1 e' rfl)
  | none =>
      obtain ⟨hwfc, hverc, hmonoc, hokc, herrc⟩ :=
        push_number_checked_spec b1 (m.length_bits_count b.version) raw hwf1
      refine ⟨hwfc, by rw [hverc, hver1], le_trans hmono1 hmonoc,
        fun hsucc => ?_, fun e hc => ?_⟩
      · obtain ⟨hn16, hraw, -, hlenc⟩ := hokc hsucc
        rcases hok1 rfl with ⟨hlen1, hb16⟩ | ⟨a, hva, ha⟩
        · have hpos : 1 ≤ m.length_bits_count b.version :=
            length_bits_count_pos m b.version hb16
          have hne : b1.bit_offset + m.length_bits_count b.version ≠ 0 := by omega
          rw [if_neg hne] at hlenc
          exact ⟨hraw, hn16, by omega, by rw [hlenc, hlen1]⟩
        · exfalso
          have hge : a ≤ m.length_bits_count b.version := by
            rw [hva]
            cases m <;> simp [Mode.length_bits_count] <;> omega
          omega
      · have hc' : (b1.push_number_checked
            (m.length_bits_count b.version) raw).2 = some e := hc
        obtain ⟨-, hev⟩ := herrc (by rw [hc']; simp)
        rw [hc'] at hev
        injection hev with hev2
        exact Or.inr hev2

/-! ### Payload-loop lemmas -/

theorem pushNumericGroups_spec : ∀ (l : List Nat) (b : Bits), b.wf →
    (pushNumericGroups b l).wf ∧ (pushNumericGroups b l).version = b.version ∧
    (pushNumericGroups b l).len =
      b.len + (10 * (l.length / 3) + numericTrailingBits (l.length % 3)) := by
  have H : ∀ (n : Nat) (l : List Nat), l.length ≤ n → ∀ b : Bits, b.wf →
      (pushNumericGroups b l).wf ∧ (pushNumericGroups b l).version = b.version ∧
      (pushNumericGroups b l).len =
        b.len + (10 * (l.length / 3) + numericTrailingBits (l.length % 3)) := by
    intro n
    induction n with
    | zero =>
        intro l hlen b hwf
        have hnil : l = [] := List.eq_nil_of_length_eq_zero (by omega)
        subst hnil
        exact ⟨hwf, rfl, by norm_num [pushNumericGroups, numericTrailingBits]⟩
    | succ n ih =>
        intro l hlen b hwf
        rcases l with - | ⟨d1, - | ⟨d2, - | ⟨d3, rest⟩⟩⟩
        · exact ⟨hwf, rfl, by norm_num [pushNumericGroups, numericTrailingBits]⟩
        · obtain ⟨hwf2, hver, hlen2⟩ :=
            push_number_spec b 4 (numericChunkValue [d1]) hwf (by omega)
          refine ⟨hwf2, hver, ?_⟩
          rw [show pushNumericGroups b [d1] =
            b.push_number 4 (numericChunkValue [d1]) from rfl, hlen2,
            if_neg (by omega : ¬b.bit_offset + 4 = 0)]
          norm_num [numericTrailingBits]
        · obtain ⟨hwf2, hver, hlen2⟩ :=
            push_number_spec b 7 (numericChunkValue [d1, d2]) hwf (by omega)
          refine ⟨hwf2, hver, ?_⟩
          rw [show pushNumericGroups b [d1, d2] =
            b.push_number 7 (numericChunkValue [d1, d2]) from rfl, hlen2,
            if_neg (by omega : ¬b.bit_offset + 7 = 0)]
          norm_num [numericTrailingBits]
        · obtain ⟨hwf2, hver2, hlen2⟩ :=
            push_number_spec b 10 (numericChunkValue [d1, d2, d3]) hwf (by omega)
          have hrest : rest.length ≤ n := by
            simp only [List.length_cons] at hlen
            omega
          obtain ⟨hwf3, hver3, hlen3⟩ :=
            ih rest hrest (b.push_number 10 (numericChunkValue [d1, d2, d3])) hwf2
          have hE : pushNumericGroups b (d1 :: d2 :: d3 :: rest) =
              pushNumericGroups
                (b.push_number 10 (numericChunkValue [d1, d2, d3])) rest := rfl
          rw [hE]
          refine ⟨hwf3, by rw [hver3, hver2], ?_⟩
          rw [hlen3, hlen2, if_neg (by omega : ¬b.bit_offset + 10 = 0)]
          have e1 : (d1 :: d2 :: d3 :: rest).length = rest.length + 3 := by
            simp only [List.length_cons]
          rw [e1, Nat.add_mod_right, Nat.add_div_right _ (by norm_num)]
          omega
  exact fun l => H l.length l (le_refl _)

theorem pushAlnumGroups_spec : ∀ (l : List Nat) (b : Bits), b.wf →
    (pushAlnumGroups b l).wf ∧ (pushAlnumGroups b l).version = b.version ∧
    (pushAlnumGroups b l).len =
      b.len + (11 * (l.length / 2) + alnumTrailingBits (l.length % 2)) := by
  have H : ∀ (n : Nat) (l : List Nat), l.length ≤ n → ∀ b : Bits, b.wf →
      (pushAlnumGroups b l).wf ∧ (pushAlnumGroups b l).version = b.version ∧
      (pushAlnumGroups b l).len =
        b.len + (11 * (l.length / 2) + alnumTrailingBits (l.length % 2)) := by
    intro n
    induction n with
    | zero =>
        intro l hlen b hwf
        have hnil : l = [] := List.eq_nil_of_length_eq_zero (by omega)
        subst hnil
        exact ⟨hwf, rfl, by norm_num [pushAlnumGroups, alnumTrailingBits]⟩
    | succ n ih =>
        intro l hlen b hwf
        rcases l with - | ⟨c1, - | ⟨c2, rest⟩⟩
        · exact ⟨hwf, rfl, by norm_num [pushAlnumGroups, alnumTrailingBits]⟩
        · obtain ⟨hwf2, hver, hlen2⟩ :=
            push_number_spec b 6 (alnumChunkValue [c1]) hwf (by omega)
          refine ⟨hwf2, hver, ?_⟩
          rw [show pushAlnumGroups b [c1] =
            b.push_number 6 (alnumChunkValue [c1]) from rfl, hlen2,
            if_neg (by omega : ¬b.bit_offset + 6 = 0)]
          norm_num [alnumTrailingBits]
        · obtain ⟨hwf2, hver2, hlen2⟩ :=
            push_number_spec b 11 (alnumChunkValue [c1, c2]) hwf (by omega)
          have hrest : rest.length ≤ n := by
            simp only [List.length_cons] at hlen
            omega
          obtain ⟨hwf3, hver3, hlen3⟩ :=
            ih rest hrest (b.push_number 11 (alnumChunkValue [c1, c2])) hwf2
          have hE : pushAlnumGroups b (c1 :: c2 :: rest) =
              pushAlnumGroups (b.push_number 11 (alnumChunkValue [c1, c2])) rest := rfl
          rw [hE]
          refine ⟨hwf3, by rw [hver3, hver2], ?_⟩
          rw [hlen3, hlen2, if_neg (by omega : ¬b.bit_offset + 11 = 0)]
          have e1 : (c1 :: c2 :: rest).length = rest.length + 2 := by
            simp only [List.length_cons]
          rw [e1, Nat.add_mod_right, Nat.add_div_right _ (by norm_num)]
          omega
  exact fun l => H l.length l (le_refl _)

theorem pushByteList_spec : ∀ (l : List Nat) (b : Bits), b.wf →
    (pushByteList b l).wf ∧ (pushByteList b l).version = b.version ∧
    (pushByteList b l).len = b.len + 8 * l.length := by
  intro l
  induction l with
  | nil => exact fun b hwf => ⟨hwf, rfl, by simp [pushByteList]⟩
  | cons x rest ih =>
      intro b hwf
      obtain ⟨hwf2, hver2, hlen2⟩ := push_number_spec b 8 x hwf (by omega)
      obtain ⟨hwf3, hver3, hlen3⟩ := ih (b.push_number 8 x) hwf2
      have hE : pushByteList b (x :: rest) = pushByteList (b.push_number 8 x) rest := rfl
      rw [hE]
      refine ⟨hwf3, by rw [hver3, hver2], ?_⟩
      rw [hlen3, hlen2, if_neg (by omega : ¬b.bit_offset + 8 = 0)]
      simp only [List.length_cons]
      ring

theorem pushKanjiPairs_even_spec : ∀ (l : List Nat) (b : Bits), b.wf →
    l.length % 2 = 0 →
    pushKanjiPairs b l = ((pushKanjiPairs b l).1, none) ∧
    (pushKanjiPairs b l).1.wf ∧ (pushKanjiPairs b l).1.version = b.version ∧
    (pushKanjiPairs b l).1.len = b.len + 13 * (l.length / 2) := by
  have H : ∀ (n : Nat) (l : List Nat), l.length ≤ n → ∀ b : Bits, b.wf →
      l.length % 2 = 0 →
      pushKanjiPairs b l = ((pushKanjiPairs b l).1, none) ∧
      (pushKanjiPairs b l).1.wf ∧ (pushKanjiPairs b l).1.version = b.version ∧
      (pushKanjiPairs b l).1.len = b.len + 13 * (l.length / 2) := by
    intro n
    induction n with
    | zero =>
        intro l hlen b hwf hpar
        have hnil : l = [] := List.eq_nil_of_length_eq_zero (by omega)
        subst hnil
        exact ⟨rfl, hwf, rfl, by norm_num [pushKanjiPairs]⟩
    | succ n ih =>
        intro l hlen b hwf hpar
        rcases l with - | ⟨k1, - | ⟨k2, rest⟩⟩
        · exact ⟨rfl, hwf, rfl, by norm_num [pushKanjiPairs]⟩
        · simp at hpar
        · obtain ⟨hwf2, hver2, hlen2⟩ :=
            push_number_spec b 13 (kanjiNumber k1 k2) hwf (by omega)
          have hrest : rest.length ≤ n := by
            simp only [List.length_cons] at hlen
            omega
          have hpar2 : rest.length % 2 = 0 := by
            simp only [List.length_cons] at hpar
            omega
          obtain ⟨heq3, hwf3, hver3, hlen3⟩ :=
            ih rest hrest (b.push_number 13 (kanjiNumber k1 k2)) hwf2 hpar2
          have hE : pushKanjiPairs b (k1 :: k2 :: rest) =
              pushKanjiPairs (b.push_number 13 (kanjiNumber k1 k2)) rest := rfl
          rw [hE]
          refine ⟨heq3, hwf3, by rw [hver3, hver2], ?_⟩
          rw [hlen3, hlen2, if_neg (by omega : ¬b.bit_offset + 13 = 0)]
          have e1 : (k1 :: k2 :: rest).length = rest.length + 2 := by
            simp only [List.length_cons]
          rw [e1, Nat.add_div_right _ (by norm_num)]
          ring
  exact fun l => H l.length l (le_refl _)

theorem pushKanjiPairs_odd : ∀ (l : List Nat) (b : Bits), l.length % 2 = 1 →
    pushKanjiPairs b l =
      ((pushKanjiPairs b l.dropLast).1, some .InvalidCharacter) := by
  have H : ∀ (n : Nat) (l : List Nat), l.length ≤ n → ∀ b : Bits,
      l.length % 2 = 1 →
      pushKanjiPairs b l =
        ((pushKanjiPairs b l.dropLast).1, some .InvalidCharacter) := by
    intro n
    induction n with
    | zero =>
        intro l hlen b hpar
        have hnil : l = [] := List.eq_nil_of_length_eq_zero (by omega)
        subst hnil
        simp at hpar
    | succ n ih =>
        intro l hlen b hpar
        rcases l with - | ⟨k1, - | ⟨k2, rest⟩⟩
        · simp at hpar
        · rfl
        · have hrest : rest.length ≤ n := by
            simp only [List.length_cons] at hlen
            omega
          have hpar2 : rest.length % 2 = 1 := by
            simp only [List.length_cons] at hpar
            omega
          have hne : rest ≠ [] := by
            intro hc
            rw [hc] at hpar2
            simp at hpar2
          have hE : pushKanjiPairs b (k1 :: k2 :: rest) =
              pushKanjiPairs (b.push_number 13 (kanjiNumber k1 k2)) rest := rfl
          have hdrop : (k1 :: k2 :: rest).dropLast = k1 :: k2 :: rest.dropLast := by
            rcases rest with - | ⟨r1, rrest⟩
            · exact absurd rfl hne
            · rfl
          rw [hE, hdrop]
          have hE2 : pushKanjiPairs b (k1 :: k2 :: rest.dropLast) =
              pushKanjiPairs (b.push_number 13 (kanjiNumber k1 k2)) rest.dropLast := rfl
          rw [hE2]
          exact ih rest hrest (b.push_number 13 (kanjiNumber k1 k2)) hpar2
  exact fun l => H l.length l (le_refl _)

/-! ### Data-operation lemmas -/

theorem push_numeric_data_spec (b : Bits) (data : List Nat) (hwf : b.wf) :
    (b.push_numeric_data data).1.wf ∧
    (b.push_numeric_data data).1.version = b.version ∧
    b.len ≤ (b.push_numeric_data data).1.len ∧
    ((b.push_numeric_data data).2 = none →
      (b.push_numeric_data data).1.len =
        b.len + b.version.mode_bits_count +
          Mode.Numeric.length_bits_count b.version +
          (10 * (data.length / 3) + numericTrailingBits (data.length % 3))) := by
  obtain ⟨hwf1, hver1, hmono1, hok1, herrv1⟩ :=
    push_header_spec b .Numeric data.length hwf
  rcases hh : b.push_header .Numeric data.length with ⟨b1, e⟩
  rw [hh] at hwf1 hver1 hmono1 hok1 herrv1
  cases e with
  | some e' =>
      have hred : b.push_numeric_data data = (b1, some e') := by
        unfold Bits.push_numeric_data
        rw [hh]
      rw [hred]
      exact ⟨hwf1, hver1, hmono1, fun hc => by simp at hc⟩
  | none =>
      have hred : b.push_numeric_data data = (pushNumericGroups b1 data, none) := by
        unfold Bits.push_numeric_data
        rw [hh]
      rw [hred]
      obtain ⟨hwfg, hverg, hleng⟩ := pushNumericGroups_spec data b1 hwf1
      obtain ⟨-, -, -, hlen1⟩ := hok1 rfl
      have hmono1' : b.len ≤ b1.len := hmono1
      have hlen1' : b1.len = b.len + b.version.mode_bits_count +
          Mode.Numeric.length_bits_count b.version := hlen1
      refine ⟨hwfg, by rw [hverg, hver1], ?_, fun _ => ?_⟩
      · show b.len ≤ (pushNumericGroups b1 data).len
        omega
      · show (pushNumericGroups b1 data).len = _
        omega

theorem push_alphanumeric_data_spec (b : Bits) (data : List Nat) (hwf : b.wf) :
    (b.push_alphanumeric_data data).1.wf ∧
    (b.push_alphanumeric_data data).1.version = b.version ∧
    b.len ≤ (b.push_alphanumeric_data data).1.len ∧
    ((b.push_alphanumeric_data data).2 = none →
      (b.push_alphanumeric_data data).1.len =
        b.len + b.version.mode_bits_count +
          Mode.Alphanumeric.length_bits_count b.version +
          (11 * (data.length / 2) + alnumTrailingBits (data.length % 2))) := by
  obtain ⟨hwf1, hver1, hmono1, hok1, herrv1⟩ :=
    push_header_spec b .Alphanumeric data.length hwf
  rcases hh : b.push_header .Alphanumeric data.length with ⟨b1, e⟩
  rw [hh] at hwf1 hver1 hmono1 hok1 herrv1
  cases e with
  | some e' =>
      have hred : b.push_alphanumeric_data data = (b1, some e') := by
        unfold Bits.push_alphanumeric_data
        rw [hh]
      rw [hred]
      exact ⟨hwf1, hver1, hmono1, fun hc => by simp at hc⟩
  | none =>
      have hred : b.push_alphanumeric_data data =
          (pushAlnumGroups b1 data, none) := by
        unfold Bits.push_alphanumeric_data
        rw [hh]
      rw [hred]
      obtain ⟨hwfg, hverg, hleng⟩ := pushAlnumGroups_spec data b1 hwf1
      obtain ⟨-, -, -, hlen1⟩ := hok1 rfl
      have hmono1' : b.len ≤ b1.len := hmono1
      have hlen1' : b1.len = b.len + b.version.mode_bits_count +
          Mode.Alphanumeric.length_bits_count b.version := hlen1
      refine ⟨hwfg, by rw [hverg, hver1], ?_, fun _ => ?_⟩
      · show b.len ≤ (pushAlnumGroups b1 data).len
        omega
      · show (pushAlnumGroups b1 data).len = _
        omega

theorem push_byte_data_spec (b : Bits) (data : List Nat) (hwf : b.wf) :
    (b.push_byte_data data).1.wf ∧
    (b.push_byte_data data).1.version = b.version ∧
    b.len ≤ (b.push_byte_data data).1.len ∧
    ((b.push_byte_data data).2 = none →
      (b.push_byte_data data).1.len =
        b.len + b.version.mode_bits_count +
          Mode.Byte.length_bits_count b.version + 8 * data.length) := by
  obtain ⟨hwf1, hver1, hmono1, hok1, herrv1⟩ :=
    push_header_spec b .Byte data.length hwf
  rcases hh : b.push_header .Byte data.length with ⟨b1, e⟩
  rw [hh] at hwf1 hver1 hmono1 hok1 herrv1
  cases e with
  | some e' =>
      have hred : b.push_byte_data data = (b1, some e') := by
        unfold Bits.push_byte_data
        rw [hh]
      rw [hred]
      exact ⟨hwf1, hver1, hmono1, fun hc => by simp at hc⟩
  | none =>
      have hred : b.push_byte_data data = (pushByteList b1 data, none) := by
        unfold Bits.push_byte_data
        rw [hh]
      rw [hred]
      obtain ⟨hwfg, hverg, hleng⟩ := pushByteList_spec data b1 hwf1
      obtain ⟨-, -, -, hlen1⟩ := hok1 rfl
      have hmono1' : b.len ≤ b1.len := hmono1
      have hlen1' : b1.len = b.len + b.version.mode_bits_count +
          Mode.Byte.length_bits_count b.version := hlen1
      refine ⟨hwfg, by rw [hverg, hver1], ?_, fun _ => ?_⟩
      · show b.len ≤ (pushByteList b1 data).len
        omega
      · show (pushByteList b1 data).len = _
        omega

theorem push_kanji_data_spec (b : Bits) (data : List Nat) (hwf : b.wf) :
    (b.push_kanji_data data).1.wf ∧
    (b.push_kanji_data data).1.version = b.version ∧
    b.len ≤ (b.push_kanji_data data).1.len ∧
    (data.length % 2 = 1 →
      (b.push_kanji_data data).2 = some .InvalidCharacter →
      (b.push_kanji_data data).1 =
        (pushKanjiPairs (b.push_header .Kanji (data.length / 2)).1
          data.dropLast).1 ∧
      (b.push_header .Kanji (data.length / 2)).2 = none ∧
      b.len < (b.push_kanji_data data).1.len ∧
      (b.push_kanji_data data).1.len =
        b.len + b.version.mode_bits_count +
          Mode.Kanji.length_bits_count b.version + 13 * (data.length / 2)) := by
  obtain ⟨hwf1, hver1, hmono1, hok1, herrv1⟩ :=
    push_header_spec b .Kanji (data.length / 2) hwf
  rcases hh : b.push_header .Kanji (data.length / 2) with ⟨b1, e⟩
  rw [hh] at hwf1 hver1 hmono1 hok1 herrv1
  cases e with
  | some e' =>
      have hred : b.push_kanji_data data = (b1, some e') := by
        unfold Bits.push_kanji_data
        rw [hh]
      rw [hred]
      refine ⟨hwf1, hver1, hmono1, fun hodd hc => ?_⟩
      have hc2 : some e' = some QrError.InvalidCharacter := hc
      injection hc2 with hc3
      subst hc3
      rcases herrv1 _ rfl with h1 | h1 <;> exact QrError.noConfusion h1
  | none =>
      have hred : b.push_kanji_data data = pushKanjiPairs b1 data := by
        unfold Bits.push_kanji_data
        rw [hh]
      rw [hred]
      obtain ⟨-, -, hpos1, hlen1⟩ := hok1 rfl
      have hmono1' : b.len ≤ b1.len := hmono1
      have hlen1' : b1.len = b.len + b.version.mode_bits_count +
          Mode.Kanji.length_bits_count b.version := hlen1
      by_cases hodd : data.length % 2 = 1
      · have hdl : data.dropLast.length = data.length - 1 := by
          simp [List.length_dropLast]
        have hpar : data.dropLast.length % 2 = 0 := by omega
        obtain ⟨-, hwfP, hverP, hlenP⟩ :=
          pushKanjiPairs_even_spec data.dropLast b1 hwf1 hpar
        have hO := pushKanjiPairs_odd data b1 hodd
        rw [hO]
        have hdiv : data.dropLast.length / 2 = data.length / 2 := by omega
        rw [hdiv] at hlenP
        refine ⟨hwfP, by rw [hverP, hver1], ?_, fun _ _ => ?_⟩
        · show b.len ≤ (pushKanjiPairs b1 data.dropLast).1.len
          omega
        refine ⟨rfl, rfl, ?_, ?_⟩
        · show b.len < (pushKanjiPairs b1 data.dropLast).1.len
          omega
        · show (pushKanjiPairs b1 data.dropLast).1.len = _
          omega
      · have hpar : data.length % 2 = 0 := by omega
        obtain ⟨heq, hwfP, hverP, hlenP⟩ :=
          pushKanjiPairs_even_spec data b1 hwf1 hpar
        refine ⟨hwfP, by rw [hverP, hver1], ?_, fun h1 _ => absurd h1 hodd⟩
        show b.len ≤ (pushKanjiPairs b1 data).1.len
        omega

/-! ### Terminator lemmas -/

theorem paddingBytes_length (n : Nat) : (paddingBytes n).length = n := by
  simp [paddingBytes]

theorem wf_offset0 {bb : Bits} (h : bb.bit_offset = 0) : bb.wf :=
  ⟨by omega, fun hc => absurd h hc, fun hc => absurd h hc⟩

theorem len_offset0 {bb : Bits} (h : bb.bit_offset = 0) :
    bb.len = bb.data.length * 8 := by
  rw [Bits.len, if_pos h]

theorem push_terminator_spec (b : Bits) (ec : EcLevel) (hwf : b.wf) :
    (b.push_terminator ec).1.wf ∧
    (b.push_terminator ec).1.version = b.version ∧
    b.len ≤ (b.push_terminator ec).1.len ∧
    (∀ dlen, b.version.fetch ec = .ok dlen → b.len ≤ dlen →
      (b.push_terminator ec).2 = none ∧
      (b.push_terminator ec).1.data.length = (dlen + 7) / 8) := by
  rcases hf : b.version.fetch ec with e | dlen0
  · have hred : b.push_terminator ec = (b, some e) := by
      unfold Bits.push_terminator Bits.max_len
      rw [hf]
    rw [hred]
    exact ⟨hwf, rfl, le_refl _, fun dlen hd hle => Except.noConfusion hd⟩
  · by_cases hcur : dlen0 < b.len
    · have hred : b.push_terminator ec = (b, some .DataTooLong) := by
        unfold Bits.push_terminator Bits.max_len
        simp only [hf]
        rw [if_pos hcur]
      rw [hred]
      refine ⟨hwf, rfl, le_refl _, fun dlen hd hle => ?_⟩
      have he : dlen0 = dlen := by injection hd
      omega
    · push_neg at hcur
      obtain ⟨hk1, hk9⟩ : 1 ≤ terminatorSize b.version ∧
          terminatorSize b.version ≤ 9 := by
        rcases hv : b.version with n | a | ⟨hh, ww⟩
        · exact ⟨by simp [terminatorSize], by simp [terminatorSize]⟩
        · rw [hv] at hf
          simp only [Version.fetch] at hf
          split_ifs at hf with h1 h2 <;>
            first
              | (simp only [terminatorSize]; omega)
              | exact Except.noConfusion hf
              | exact hf.elim
        · exact ⟨by simp [terminatorSize], by simp [terminatorSize]⟩
      have hdb : b.data.length = (b.len + 7) / 8 := data_length_of_wf hwf
      set ts := min (terminatorSize b.version) (dlen0 - b.len) with hts
      set b1 := if 0 < ts then b.push_number ts 0 else b with hb1def
      set b2 := (if b1.len < dlen0 then
          { b1 with bit_offset := 0, data := b1.data ++ paddingBytes (dlen0 / 8 - b1.data.length) }
        else b1) with hb2def
      set b3 := (if b2.len < dlen0 then { b2 with data := b2.data ++ [0] }
        else b2) with hb3def
      have hred : b.push_terminator ec = (b3, none) := by
        unfold Bits.push_terminator Bits.max_len
        simp only [hf]
        rw [if_neg (not_lt.mpr hcur)]
      rw [hred]
      have hb1all : b1.wf ∧ b1.version = b.version ∧ b1.len = b.len + ts := by
        by_cases h0 : 0 < ts
        · rw [hb1def, if_pos h0]
          obtain ⟨w1, w2, w3⟩ := push_number_spec b ts 0 hwf (by omega)
          refine ⟨w1, w2, ?_⟩
          rw [w3, if_neg (by omega : ¬b.bit_offset + ts = 0)]
        · rw [hb1def, if_neg h0]
          exact ⟨hwf, rfl, by omega⟩
      obtain ⟨hwf1, hver1, hlen1⟩ := hb1all
      have hts_le : b.len + ts ≤ dlen0 := by omega
      have hd1 : b1.data.length = (b1.len + 7) / 8 := data_length_of_wf hwf1
      by_cases hA : b1.len < dlen0
      · have hb2eq : b2 =
            { b1 with bit_offset := 0, data := b1.data ++ paddingBytes (dlen0 / 8 - b1.data.length) } := by
          rw [hb2def, if_pos hA]
        have hoff2 : b2.bit_offset = 0 := by rw [hb2eq]
        have hwf2 : b2.wf := wf_offset0 hoff2
        have hver2 : b2.version = b1.version := by rw [hb2eq]
        have hd2 : b2.data.length =
            b1.data.length + (dlen0 / 8 - b1.data.length) := by
          rw [hb2eq]
          show (b1.data ++ paddingBytes (dlen0 / 8 - b1.data.length)).length = _
          rw [List.length_append, paddingBytes_length]
        have hlen2 : b2.len = b2.data.length * 8 := len_offset0 hoff2
        by_cases hB : b2.len < dlen0
        · have hb3eq : b3 = { b2 with data := b2.data ++ [0] } := by
            rw [hb3def, if_pos hB]
          have hoff3 : b3.bit_offset = 0 := by
            rw [hb3eq]
            exact hoff2
          have hwf3 : b3.wf := wf_offset0 hoff3
          have hver3 : b3.version = b2.version := by rw [hb3eq]
          have hd3 : b3.data.length = b2.data.length + 1 := by
            rw [hb3eq]
            show (b2.data ++ [0]).length = _
            rw [List.length_append]
            rfl
          have hlen3 : b3.len = b3.data.length * 8 := len_offset0 hoff3
          refine ⟨hwf3, by rw [hver3, hver2, hver1],
            by show b.len ≤ b3.len; omega, fun dlen hd hle => ?_⟩
          have he : dlen0 = dlen := by injection hd
          refine ⟨rfl, ?_⟩
          show b3.data.length = (dlen + 7) / 8
          omega
        · have hb3eq : b3 = b2 := by rw [hb3def, if_neg hB]
          have hlen3 : b3.len = b2.len := by rw [hb3eq]
          have hd3 : b3.data.length = b2.data.length := by rw [hb3eq]
          refine ⟨hb3eq ▸ hwf2, by rw [hb3eq, hver2, hver1],
            by show b.len ≤ b3.len; omega, fun dlen hd hle => ?_⟩
          have he : dlen0 = dlen := by injection hd
          refine ⟨rfl, ?_⟩
          show b3.data.length = (dlen + 7) / 8
          omega
      · have hb2eq : b2 = b1 := by rw [hb2def, if_neg hA]
        have hB : ¬ b2.len < dlen0 := by rw [hb2eq]; omega
        have hb3eq : b3 = b1 := by rw [hb3def, if_neg hB, hb2eq]
        have hlen3 : b3.len = b1.len := by rw [hb3eq]
        have hd3 : b3.data.length = b1.data.length := by rw [hb3eq]
        refine ⟨hb3eq ▸ hwf1, by rw [hb3eq, hver1],
          by show b.len ≤ b3.len; omega, fun dlen hd hle => ?_⟩
        have he : dlen0 = dlen := by injection hd
        refine ⟨rfl, ?_⟩
        show b3.data.length = (dlen + 7) / 8
        omega

/-! ### Claim C10 -/

/-- C10: on an odd-length Kanji input the error `InvalidCharacter` is
returned only after the buffer has been extended with the mode indicator,
the length field `data.len() / 2`, and the 13-bit codes of all complete
2-byte pairs: the operation is not atomic and the state is changed on
error. -/
theorem c10_kanji_error_state_changed (b : Bits) (data : List Nat)
    (hwf : b.wf) (hodd : data.length % 2 = 1)
    (herr : (b.push_kanji_data data).2 = some .InvalidCharacter) :
    (b.push_kanji_data data).1 =
      (pushKanjiPairs (b.push_header .Kanji (data.length / 2)).1
        data.dropLast).1 ∧
    (b.push_header .Kanji (data.length / 2)).2 = none ∧
    b.len < (b.push_kanji_data data).1.len ∧
    (b.push_kanji_data data).1.len =
      b.len + b.version.mode_bits_count +
        Mode.Kanji.length_bits_count b.version + 13 * (data.length / 2) := by
  obtain ⟨-, -, -, h4⟩ := push_kanji_data_spec b data hwf
  exact h4 hodd herr

/-- Witness for C10 at a concrete odd-length input. -/
theorem c10_kanji_error_state_changed_witness :
    (Bits.new (Version.Normal 1)).wf ∧
    ([147, 95, 1] : List Nat).length % 2 = 1 ∧
    ((Bits.new (Version.Normal 1)).push_kanji_data [147, 95, 1]).2 =
      some .InvalidCharacter ∧
    ((Bits.new (Version.Normal 1)).push_kanji_data [147, 95, 1]).1 =
      (pushKanjiPairs
        ((Bits.new (Version.Normal 1)).push_header .Kanji
          (([147, 95, 1] : List Nat).length / 2)).1
        ([147, 95, 1] : List Nat).dropLast).1 ∧
    (Bits.new (Version.Normal 1)).len <
      ((Bits.new (Version.Normal 1)).push_kanji_data [147, 95, 1]).1.len :=
  have hmain := c10_kanji_error_state_changed (Bits.new (Version.Normal 1))
    [147, 95, 1] (wf_new _) (by decide) (by decide)
  ⟨wf_new _, by decide, by decide, hmain.1, hmain.2.2.1⟩

/-! ### Claim C6 -/

/-- C6: `push_numeric_data` packs digits in groups of 3 after the header
(full group 10 bits, trailing two digits 7 bits, trailing one digit 4
bits), and on a fresh `Normal(1)` buffer the input `"01234567"` produces
exactly the bytes `10 20 0C 56 61 80`. -/
theorem c6_numeric_packing (b : Bits) (data : List Nat) (hwf : b.wf)
    (hok : (b.push_numeric_data data).2 = none) :
    (b.push_numeric_data data).1.len =
      b.len + b.version.mode_bits_count +
        Mode.Numeric.length_bits_count b.version +
        (10 * (data.length / 3) + numericTrailingBits (data.length % 3)) ∧
    (Bits.new (Version.Normal 1)).push_numeric_data
        [48, 49, 50, 51, 52, 53, 54, 55] =
      (⟨[0x10, 0x20, 0x0C, 0x56, 0x61, 0x80], 1, Version.Normal 1⟩, none) := by
  obtain ⟨-, -, -, h4⟩ := push_numeric_data_spec b data hwf
  exact ⟨h4 hok, by decide⟩

/-- Witness for C6 at a concrete buffer and digit string. -/
theorem c6_numeric_packing_witness :
    (Bits.new (Version.Normal 1)).wf ∧
    ((Bits.new (Version.Normal 1)).push_numeric_data
        [48, 49, 50, 51, 52, 53, 54, 55]).2 = none ∧
    ((Bits.new (Version.Normal 1)).push_numeric_data
        [48, 49, 50, 51, 52, 53, 54, 55]).1.len =
      (Bits.new (Version.Normal 1)).len +
        (Bits.new (Version.Normal 1)).version.mode_bits_count +
        Mode.Numeric.length_bits_count (Bits.new (Version.Normal 1)).version +
        (10 * (([48, 49, 50, 51, 52, 53, 54, 55] : List Nat).length / 3) +
          numericTrailingBits
            (([48, 49, 50, 51, 52, 53, 54, 55] : List Nat).length % 3)) :=
  ⟨wf_new _, by decide,
    (c6_numeric_packing (Bits.new (Version.Normal 1))
      [48, 49, 50, 51, 52, 53, 54, 55] (wf_new _) (by decide)).1⟩

/-! ### Claim C3 -/

/-- C3 (corrected): `push_alphanumeric_data` never fails with
`InvalidCharacter`, even when the input contains bytes outside the
alphanumeric set — `alphanumeric_digit` maps unknown bytes to 0 instead of
reporting them. -/
theorem c3_alphanumeric_no_invalid_character (b : Bits) (data : List Nat)
    (hwf : b.wf) :
    (b.push_alphanumeric_data data).2 ≠ some QrError.InvalidCharacter := by
  obtain ⟨-, -, -, -, herrv1⟩ :=
    push_header_spec b .Alphanumeric data.length hwf
  rcases hh : b.push_header .Alphanumeric data.length with ⟨b1, e⟩
  rw [hh] at herrv1
  cases e with
  | some e' =>
      have hred : b.push_alphanumeric_data data = (b1, some e') := by
        unfold Bits.push_alphanumeric_data
        rw [hh]
      rw [hred]
      intro hc
      injection hc with hc2
      subst hc2
      rcases herrv1 _ rfl with h1 | h1 <;> exact QrError.noConfusion h1
  | none =>
      have hred : b.push_alphanumeric_data data =
          (pushAlnumGroups b1 data, none) := by
        unfold Bits.push_alphanumeric_data
        rw [hh]
      rw [hred]
      simp

/-- Witness for C3 at a concrete buffer and input. -/
theorem c3_alphanumeric_no_invalid_character_witness :
    (Bits.new (Version.Normal 1)).wf ∧
    ((Bits.new (Version.Normal 1)).push_alphanumeric_data [97]).2 ≠
      some QrError.InvalidCharacter :=
  ⟨wf_new _,
    c3_alphanumeric_no_invalid_character (Bits.new (Version.Normal 1)) [97]
      (wf_new _)⟩

/-- C3 counterexample to the claimed behaviour: byte 97 (lowercase `a`) is
outside the alphanumeric set, yet `push_alphanumeric_data` succeeds,
encoding it via `alphanumeric_digit 97 = 0`. -/
theorem c3_counterexample :
    isAlphanumericChar 97 = false ∧
    alphanumeric_digit 97 = 0 ∧
    ((Bits.new (Version.Normal 1)).push_alphanumeric_data [97]).2 = none :=
  ⟨rfl, rfl, rfl⟩

/-! ### Claim C2 -/

/-- C2 (corrected): for a tabulated `(version, ec_level)` pair with data
capacity `dlen` and a buffer whose bit length does not exceed `dlen`,
`push_terminator` succeeds and leaves the byte vector with exactly
`(dlen + 7) / 8` bytes — the capacity in bits rounded *up* to bytes, not
`dlen / 8`. -/
theorem c2_terminator_byte_length (b : Bits) (ec : EcLevel) (dlen : Nat)
    (hwf : b.wf) (hf : b.version.fetch ec = .ok dlen) (hle : b.len ≤ dlen) :
    (b.push_terminator ec).2 = none ∧
    (b.push_terminator ec).1.data.length = (dlen + 7) / 8 := by
  obtain ⟨-, -, -, h4⟩ := push_terminator_spec b ec hwf
  exact h4 dlen hf hle

/-- Witness for C2 at `Normal(1)`, level L (capacity 152 bits). -/
theorem c2_terminator_byte_length_witness :
    (Bits.new (Version.Normal 1)).wf ∧
    (Bits.new (Version.Normal 1)).version.fetch EcLevel.L = .ok 152 ∧
    (Bits.new (Version.Normal 1)).len ≤ 152 ∧
    ((Bits.new (Version.Normal 1)).push_terminator EcLevel.L).2 = none ∧
    ((Bits.new (Version.Normal 1)).push_terminator EcLevel.L).1.data.length =
      (152 + 7) / 8 :=
  have hmain := c2_terminator_byte_length (Bits.new (Version.Normal 1))
    EcLevel.L 152 (wf_new _) (by decide) (by decide)
  ⟨wf_new _, by decide, by decide, hmain.1, hmain.2⟩

/-- C2 counterexample to the claimed `bytes.len == data_capacity_bits/8`:
for `Micro(1)` at L the capacity is 20 bits; from an empty buffer
`push_terminator` succeeds with 3 bytes, but `20 / 8 = 2`. -/
theorem c2_counterexample :
    (Version.Micro 1).fetch EcLevel.L = .ok 20 ∧
    ((Bits.new (Version.Micro 1)).push_terminator EcLevel.L).2 = none ∧
    ((Bits.new (Version.Micro 1)).push_terminator EcLevel.L).1.data.length =
      3 ∧
    20 / 8 = 2 :=
  ⟨rfl, by decide, by decide, rfl⟩

/-! ### Claim C8 -/

/-- C8: the mode join `Mode.max` is idempotent and commutative, sends
`{Alphanumeric, Kanji}` to `Byte`, and is a least upper bound for the
partial order `ModeLe` (Numeric ≤ Alphanumeric ≤ Byte, Kanji ≤ Byte,
Alphanumeric and Kanji incomparable). -/
theorem c8_mode_max_join :
    (∀ m : Mode, m.max m = m) ∧
    (∀ a b : Mode, a.max b = b.max a) ∧
    Mode.Alphanumeric.max .Kanji = .Byte ∧
    (∀ a b : Mode, ModeLe a (a.max b) ∧ ModeLe b (a.max b) ∧
      ∀ c : Mode, ModeLe a c → ModeLe b c → ModeLe (a.max b) c) ∧
    ModeLe .Numeric .Alphanumeric ∧ ModeLe .Alphanumeric .Byte ∧
    ModeLe .Kanji .Byte ∧ ¬ ModeLe .Alphanumeric .Kanji ∧
    ¬ ModeLe .Kanji .Alphanumeric := by
  refine ⟨fun m => by cases m <;> rfl,
    fun a b => by cases a <;> cases b <;> rfl,
    rfl, fun a b => ?_, by decide, by decide, by decide, by decide, by decide⟩
  cases a <;> cases b <;>
    exact ⟨by decide, by decide, fun c hac hbc => by
      revert hac hbc
      cases c <;> decide⟩

/-! ### Claim C9 -/

/-- Every state reachable through the public push operations is
well-formed. -/
theorem reachable_wf {b : Bits} (h : Reachable b) : b.wf := by
  induction h with
  | new v => exact wf_new v
  | push_number_checked b n number hr ih =>
      exact (push_number_checked_spec b n number ih).1
  | push_mode_indicator b m hr ih => exact (push_mode_indicator_spec b m ih).1
  | push_numeric_data b d hr ih => exact (push_numeric_data_spec b d ih).1
  | push_alphanumeric_data b d hr ih =>
      exact (push_alphanumeric_data_spec b d ih).1
  | push_byte_data b d hr ih => exact (push_byte_data_spec b d ih).1
  | push_kanji_data b d hr ih => exact (push_kanji_data_spec b d ih).1
  | push_terminator b ec hr ih => exact (push_terminator_spec b ec ih).1

/-- C9 (corrected): every reachable `Bits` state keeps
`bit_offset ∈ [0, 8)` with non-empty data whenever the offset is nonzero,
its bit length satisfies `len = 8·bytes − (8 − bit_offset) % 8`, and every
push leaves the length non-decreasing — but `push_number n v` adds
8 bits, not `n`, in the corner case `bit_offset = 0` and `n = 0`. -/
theorem c9_reachable_invariant (b : Bits) (h : Reachable b) :
    (b.bit_offset < 8 ∧ (b.bit_offset ≠ 0 → b.data ≠ []) ∧
      b.len = 8 * b.data.length - (8 - b.bit_offset) % 8) ∧
    (∀ n number, n ≤ 16 →
      (b.push_number n number).len =
        b.len + (if b.bit_offset + n = 0 then 8 else n)) ∧
    (∀ n number, b.len ≤ (b.push_number_checked n number).1.len) ∧
    (∀ m, b.len ≤ (b.push_mode_indicator m).1.len) ∧
    (∀ d, b.len ≤ (b.push_numeric_data d).1.len) ∧
    (∀ d, b.len ≤ (b.push_alphanumeric_data d).1.len) ∧
    (∀ d, b.len ≤ (b.push_byte_data d).1.len) ∧
    (∀ d, b.len ≤ (b.push_kanji_data d).1.len) ∧
    (∀ ec, b.len ≤ (b.push_terminator ec).1.len) := by
  have hwf := reachable_wf h
  obtain ⟨h8, hne, hlow⟩ := hwf
  have hwf' : b.wf := ⟨h8, hne, hlow⟩
  refine ⟨⟨h8, hne, ?_⟩,
    fun n number hn => (push_number_spec b n number hwf' hn).2.2,
    fun n number => (push_number_checked_spec b n number hwf').2.2.1,
    fun m => (push_mode_indicator_spec b m hwf').2.2.1,
    fun d => (push_numeric_data_spec b d hwf').2.2.1,
    fun d => (push_alphanumeric_data_spec b d hwf').2.2.1,
    fun d => (push_byte_data_spec b d hwf').2.2.1,
    fun d => (push_kanji_data_spec b d hwf').2.2.1,
    fun ec => (push_terminator_spec b ec hwf').2.2.1⟩
  rw [Bits.len]
  by_cases h0 : b.bit_offset = 0
  · rw [if_pos h0, h0]
    omega
  · rw [if_neg h0]
    have hnil : b.data ≠ [] := hne h0
    have hL : 0 < b.data.length := List.length_pos.mpr hnil
    omega

/-- Witness for C9 at the initial state. -/
theorem c9_reachable_invariant_witness :
    Reachable (Bits.new (Version.Normal 1)) ∧
    ((Bits.new (Version.Normal 1)).bit_offset < 8 ∧
      ((Bits.new (Version.Normal 1)).bit_offset ≠ 0 →
        (Bits.new (Version.Normal 1)).data ≠ []) ∧
      (Bits.new (Version.Normal 1)).len =
        8 * (Bits.new (Version.Normal 1)).data.length -
          (8 - (Bits.new (Version.Normal 1)).bit_offset) % 8) :=
  ⟨Reachable.new _,
    (c9_reachable_invariant (Bits.new (Version.Normal 1))
      (Reachable.new _)).1⟩

/-- C9 counterexample to the exact-`n` growth of `push_number`: the public
`push_number_checked 0 0` succeeds on an empty buffer and grows the length
by 8 bits, not by `n = 0`. -/
theorem c9_counterexample :
    ((Bits.new (Version.Normal 1)).push_number_checked 0 0).2 = none ∧
    ((Bits.new (Version.Normal 1)).push_number_checked 0 0).1.len = 8 ∧
    (Bits.new (Version.Normal 1)).len = 0 :=
  ⟨rfl, rfl, rfl⟩

/-! ### Claim C5 -/

/-- C5: `push_mode_indicator` appends 4 bits for Normal versions,
`version_number − 1` bits for Micro versions and 3 bits for rMQR versions;
`Micro(1)` with `Numeric` succeeds appending zero bits; and for Micro
versions 1–4 it fails (with `UnsupportedCharacterSet`) exactly when the
mode is not allowed: any non-Numeric mode for `Micro(1)`, and `Byte` or
`Kanji` for `Micro(2)`. -/
theorem c5_mode_indicator_bits (b : Bits) (m : Mode) (hwf : b.wf) :
    (∀ n, b.version = .Normal n →
      (b.push_mode_indicator m).2 = none ∧
      (b.push_mode_indicator m).1.len = b.len + 4) ∧
    (∀ hh ww, b.version = .Rmqr hh ww →
      (b.push_mode_indicator m).2 = none ∧
      (b.push_mode_indicator m).1.len = b.len + 3) ∧
    (b.version = .Micro 1 → m = .Numeric →
      b.push_mode_indicator m = (b, none)) ∧
    (∀ a, b.version = .Micro a → 1 ≤ a → a ≤ 4 →
      ((b.push_mode_indicator m).2 = some .UnsupportedCharacterSet ↔
        (a = 1 ∧ m ≠ .Numeric) ∨ (a = 2 ∧ (m = .Byte ∨ m = .Kanji))) ∧
      ((b.push_mode_indicator m).2 = none →
        (b.push_mode_indicator m).1.len = b.len + (a - 1))) := by
  obtain ⟨hwfr, hverr, hmono, hok, hunch, herrv⟩ :=
    push_mode_indicator_spec b m hwf
  obtain ⟨data, off, ver⟩ := b
  refine ⟨?_, ?_, ?_, ?_⟩
  · intro n hv
    have hv' : ver = Version.Normal n := hv
    subst hv'
    have hnone : ((⟨data, off, Version.Normal n⟩ : Bits).push_mode_indicator
        m).2 = none := by
      cases m <;> rfl
    refine ⟨hnone, ?_⟩
    rcases hok hnone with ⟨hlen, -⟩ | ⟨a', ha', -⟩
    · exact hlen
    · exact Version.noConfusion
        (show Version.Normal n = Version.Micro a' from ha')
  · intro hh ww hv
    have hv' : ver = Version.Rmqr hh ww := hv
    subst hv'
    have hnone : ((⟨data, off, Version.Rmqr hh ww⟩ : Bits).push_mode_indicator
        m).2 = none := by
      cases m <;> rfl
    refine ⟨hnone, ?_⟩
    rcases hok hnone with ⟨hlen, -⟩ | ⟨a', ha', -⟩
    · exact hlen
    · exact Version.noConfusion
        (show Version.Rmqr hh ww = Version.Micro a' from ha')
  · intro hv hm
    have hv' : ver = Version.Micro 1 := hv
    subst hv'
    subst hm
    rfl
  · intro a hv h1 h4
    have hv' : ver = Version.Micro a := hv
    subst hv'
    interval_cases a <;> cases m <;>
      refine ⟨by simp [Bits.push_mode_indicator, Bits.push_number_checked,
        Version.mode_bits_count], ?_⟩ <;>
      intro hnone <;>
      rcases hok hnone with ⟨hlen, -⟩ | ⟨a', ha', hge⟩ <;>
        first
          | (simp only [Version.mode_bits_count] at hlen
             omega)
          | (injection ha' with he
             omega)

/-- Witness for C5 at `Micro(2)` with `Byte`. -/
theorem c5_mode_indicator_bits_witness :
    (Bits.new (Version.Micro 2)).wf ∧
    (((Bits.new (Version.Micro 2)).push_mode_indicator Mode.Byte).2 =
        some .UnsupportedCharacterSet ↔
      (2 = 1 ∧ Mode.Byte ≠ Mode.Numeric) ∨
        (2 = 2 ∧ (Mode.Byte = Mode.Byte ∨ Mode.Byte = Mode.Kanji))) :=
  ⟨wf_new _,
    ((c5_mode_indicator_bits (Bits.new (Version.Micro 2)) Mode.Byte
      (wf_new _)).2.2.2 2 rfl (by decide) (by decide)).1⟩

/-! ### Claim C7 -/

/-- Adjacent Normal-version capacities are strictly increasing. -/
theorem cap_normal_adj (ec : EcLevel) :
    ∀ i, i < 39 → capAt i ec < capAt (i + 1) ec := by
  rcases ec with - | - | - | - <;> decide

/-- Normal-version capacities are strictly monotone in the version index. -/
theorem cap_normal_mono (ec : EcLevel) :
    ∀ i j, i < j → j ≤ 39 → capAt i ec < capAt j ec := by
  intro i j hij hj
  induction j with
  | zero => omega
  | succ k ih =>
      rcases Nat.lt_succ_iff_lt_or_eq.mp hij with hlt | heq
      · exact lt_trans (ih hlt (by omega)) (cap_normal_adj ec k (by omega))
      · rw [heq]
        exact cap_normal_adj ec k (by omega)

/-- Normal-version capacities are monotone (non-strict form). -/
theorem cap_normal_mono_le (ec : EcLevel) :
    ∀ i j, i ≤ j → j ≤ 39 → capAt i ec ≤ capAt j ec := by
  intro i j hij hj
  rcases Nat.lt_or_ge i j with hlt | hge
  · exact le_of_lt (cap_normal_mono ec i j hlt hj)
  · have : i = j := by omega
    rw [this]

/-- Normal-version capacities are positive at every level. -/
theorem cap_normal_pos :
    ∀ i, i < 40 → ∀ ec : EcLevel, 0 < capAt i ec := by
  intro i hi ec
  revert i hi
  rcases ec with - | - | - | - <;> decide

/-- rMQR capacities are positive at levels M and H. -/
theorem cap_rmqr_MH_pos :
    ∀ i, i < 32 →
      0 < capAt (i + 44) EcLevel.M ∧ 0 < capAt (i + 44) EcLevel.H := by
  decide

/-- rMQR capacities are zero at levels L and Q. -/
theorem cap_rmqr_LQ_zero :
    ∀ i, i < 32 →
      capAt (i + 44) EcLevel.L = 0 ∧ capAt (i + 44) EcLevel.Q = 0 := by
  decide

/-- `fetch` on an in-range Normal version returns the tabulated capacity. -/
theorem fetch_normal_ok (n : Nat) (ec : EcLevel) (h1 : 1 ≤ n) (h40 : n ≤ 40) :
    (Version.Normal n).fetch ec = .ok (capAt (n - 1) ec) := by
  simp only [Version.fetch]
  rw [if_pos ⟨h1, h40⟩]

/-- `fetch` on a standardized rMQR pair at level M or H returns a positive
capacity. -/
theorem fetch_rmqr_MH {h w : Nat} (hmem : (h, w) ∈ validRmqrPairs)
    (ec : EcLevel) (hec : ec = .M ∨ ec = .H) :
    ∃ c, (Version.Rmqr h w).fetch ec = .ok c ∧ 0 < c := by
  obtain ⟨i, hok, hi⟩ := rmqr_index_ok_of_mem hmem
  have hpos : 0 < capAt (i + 44) ec := by
    rcases hec with rfl | rfl
    · exact (cap_rmqr_MH_pos i hi).1
    · exact (cap_rmqr_MH_pos i hi).2
  refine ⟨capAt (i + 44) ec, ?_, hpos⟩
  simp only [Version.fetch, hok]
  rw [if_pos (show capAt (i + 44) ec ≠ 0 by omega)]

/-- C7: `fetch` returns `Ok` with a positive capacity exactly on the
standardized `(version, ec_level)` combinations, and
`Err(InvalidVersion)` in every other case. -/
theorem c7_fetch_standardized (v : Version) (ec : EcLevel) :
    (Standardized v ec → ∃ c, v.fetch ec = .ok c ∧ 0 < c) ∧
    (¬ Standardized v ec → v.fetch ec = .error .InvalidVersion) := by
  cases v with
  | Normal n =>
      constructor
      · intro hs
        obtain ⟨h1, h40⟩ : 1 ≤ n ∧ n ≤ 40 := hs
        exact ⟨capAt (n - 1) ec, fetch_normal_ok n ec h1 h40,
          cap_normal_pos (n - 1) (by omega) ec⟩
      · intro hns
        have hno : ¬ (1 ≤ n ∧ n ≤ 40) := hns
        simp only [Version.fetch]
        rw [if_neg hno]
  | Micro n =>
      constructor
      · intro hs
        have hmem : (n, ec) ∈ ([(1, .L), (2, .L), (2, .M), (3, .L), (3, .M),
            (4, .L), (4, .M), (4, .Q)] : List (Nat × EcLevel)) := hs
        have hb : ∀ p ∈ ([(1, .L), (2, .L), (2, .M), (3, .L), (3, .M),
            (4, .L), (4, .M), (4, .Q)] : List (Nat × EcLevel)),
            1 ≤ p.1 ∧ p.1 ≤ 4 := by decide
        obtain ⟨hn1, hn4⟩ := hb _ hmem
        interval_cases n <;> rcases ec with - | - | - | - <;>
          first
            | exact absurd hmem (by decide)
            | exact ⟨_, rfl, by decide⟩
      · intro hns
        by_cases h14 : 1 ≤ n ∧ n ≤ 4
        · obtain ⟨hn1, hn4⟩ := h14
          interval_cases n <;> rcases ec with - | - | - | - <;>
            first
              | rfl
              | exact absurd (by decide) hns
        · simp only [Version.fetch]
          rw [if_neg h14]
  | Rmqr hh ww =>
      constructor
      · intro hs
        obtain ⟨hmem, hec⟩ : (hh, ww) ∈ validRmqrPairs ∧
            (ec = .M ∨ ec = .H) := hs
        exact fetch_rmqr_MH hmem ec hec
      · intro hns
        have hns' : ¬ ((hh, ww) ∈ validRmqrPairs ∧ (ec = .M ∨ ec = .H)) := hns
        by_cases hmem : (hh, ww) ∈ validRmqrPairs
        · have hecno : ¬ (ec = .M ∨ ec = .H) := fun hc => hns' ⟨hmem, hc⟩
          obtain ⟨i, hok, hi⟩ := rmqr_index_ok_of_mem hmem
          have hz : capAt (i + 44) ec = 0 := by
            rcases ec with - | - | - | -
            · exact (cap_rmqr_LQ_zero i hi).1
            · exact absurd (Or.inl rfl) hecno
            · exact (cap_rmqr_LQ_zero i hi).2
            · exact absurd (Or.inr rfl) hecno
          simp only [Version.fetch, hok, hz]
          simp
        · have herr := rmqr_index_error_of_not_mem hmem
          simp only [Version.fetch, herr]

/-- Witness for C7: both directions applied at concrete combinations. -/
theorem c7_fetch_standardized_witness :
    (Standardized (Version.Normal 1) EcLevel.L ∧
      ∃ c, (Version.Normal 1).fetch EcLevel.L = .ok c ∧ 0 < c) ∧
    (¬ Standardized (Version.Micro 1) EcLevel.M ∧
      (Version.Micro 1).fetch EcLevel.M = .error .InvalidVersion) :=
  ⟨⟨by decide, (c7_fetch_standardized (Version.Normal 1) EcLevel.L).1
      (by decide)⟩,
    ⟨by decide, (c7_fetch_standardized (Version.Micro 1) EcLevel.M).2
      (by decide)⟩⟩

/-! ### Claim C1 -/

/-- One step of the `find_min_version` binary-search loop. -/
theorem fmvLoop_step (ec : EcLevel) (length base size : Nat) (hs : 1 < size) :
    fmvLoop ec length base size =
      fmvLoop ec length
        (if length < capAt (base + size / 2) ec then base else base + size / 2)
        (size - size / 2) := by
  rw [fmvLoop, if_pos hs]

/-- Termination case of the `find_min_version` binary-search loop. -/
theorem fmvLoop_base (ec : EcLevel) (length base size : Nat)
    (hs : ¬ 1 < size) : fmvLoop ec length base size = base := by
  rw [fmvLoop, if_neg hs]

/-- Invariant of the `find_min_version` binary search: starting from a
window `[base, base + size)` whose left end already fits (or is 0) and to
the right of which nothing fits, the loop returns the largest table index
whose capacity is at most `length` (or 0). -/
theorem fmvLoop_spec (ec : EcLevel) (length : Nat) :
    ∀ size base, 1 ≤ size → base + size ≤ 39 →
      (base = 0 ∨ capAt base ec ≤ length) →
      (∀ j, base + size ≤ j → j < 39 → length < capAt j ec) →
      base ≤ fmvLoop ec length base size ∧
      fmvLoop ec length base size + 1 ≤ 39 ∧
      (fmvLoop ec length base size = 0 ∨
        capAt (fmvLoop ec length base size) ec ≤ length) ∧
      (∀ j, fmvLoop ec length base size + 1 ≤ j → j < 39 →
        length < capAt j ec) := by
  intro size
  induction size using Nat.strong_induction_on with
  | _ size ih =>
    intro base h1 h39 hbase hright
    by_cases hs : 1 < size
    · rw [fmvLoop_step ec length base size hs]
      have hhp : 1 ≤ size / 2 := by omega
      have hlt : size - size / 2 < size := by omega
      by_cases hc : length < capAt (base + size / 2) ec
      · rw [if_pos hc]
        have hside : ∀ j, base + (size - size / 2) ≤ j → j < 39 →
            length < capAt j ec := by
          intro j hj h39j
          by_cases hjm : base + size ≤ j
          · exact hright j hjm h39j
          · have hmid : base + size / 2 ≤ j := by omega
            calc length < capAt (base + size / 2) ec := hc
              _ ≤ capAt j ec := cap_normal_mono_le ec _ j hmid (by omega)
        exact ih (size - size / 2) hlt base (by omega) (by omega) hbase hside
      · rw [if_neg hc]
        obtain ⟨w1, w2, w3, w4⟩ := ih (size - size / 2) hlt (base + size / 2)
          (by omega) (by omega) (Or.inr (Nat.le_of_not_lt hc))
          (fun j hj h39j => hright j (by omega) h39j)
        exact ⟨by omega, w2, w3, w4⟩
    · rw [fmvLoop_base ec length base size hs]
      exact ⟨le_refl _, by omega, hbase,
        fun j hj h39j => hright j (by omega) h39j⟩

/-- `find_min_version` returns the smallest Normal version whose capacity
covers `length`, for every `length` within Normal(40)'s capacity. -/
theorem find_min_version_spec (length : Nat) (ec : EcLevel)
    (hlen : length ≤ capAt 39 ec) :
    ∃ n, find_min_version length ec = .Normal n ∧ 1 ≤ n ∧ n ≤ 40 ∧
      length ≤ capAt (n - 1) ec ∧
      ∀ m, 1 ≤ m → m < n → capAt (m - 1) ec < length := by
  obtain ⟨hble, hb39, hbase, hright⟩ := fmvLoop_spec ec length 39 0
    (by omega) (by omega) (Or.inl rfl) (fun j hj h39j => by omega)
  set r := fmvLoop ec length 0 39 with hr
  have hfm : find_min_version length ec =
      .Normal ((if length ≤ capAt r ec then r else r + 1) + 1) := rfl
  by_cases hc : length ≤ capAt r ec
  · rw [if_pos hc] at hfm
    refine ⟨r + 1, hfm, by omega, by omega, by simpa using hc, ?_⟩
    intro m hm1 hmr
    have hmlt : m - 1 < r := by omega
    rcases hbase with hr0 | hble2
    · omega
    · calc capAt (m - 1) ec < capAt r ec :=
            cap_normal_mono ec (m - 1) r hmlt (by omega)
        _ ≤ length := hble2
  · rw [if_neg hc] at hfm
    push_neg at hc
    refine ⟨r + 2, hfm, by omega, by omega, ?_, ?_⟩
    · show length ≤ capAt (r + 1) ec
      by_cases h38 : r + 1 < 39
      · exact le_of_lt (hright (r + 1) (by omega) h38)
      · have h39 : r + 1 = 39 := by omega
        rw [h39]
        exact hlen
    · intro m hm1 hmr
      have hm1r : m - 1 ≤ r := by omega
      calc capAt (m - 1) ec ≤ capAt r ec :=
            cap_normal_mono_le ec (m - 1) r hm1r (by omega)
        _ < length := hc

/-- `Fits` for an in-range Normal version unfolds to a capacity bound. -/
theorem fits_normal_iff (optLen : Version → Nat) (ec : EcLevel) (n : Nat)
    (h1 : 1 ≤ n) (h40 : n ≤ 40) :
    Fits optLen ec (.Normal n) ↔ optLen (.Normal n) ≤ capAt (n - 1) ec := by
  unfold Fits
  rw [fetch_normal_ok n ec h1 h40]

/-- C1: when the auto-version search of `encode_auto` succeeds (under the
spec's description of the optimizer: the total encoded length depends only
on the length-field regime and is monotone across the representative
versions 9, 26, 40), the chosen version is the minimal fitting Normal
version; and `find_min_version` returns the smallest Normal version whose
tabulated capacity covers a given length, for every length within
Normal(40)'s capacity. -/
theorem c1_encode_auto_minimal (optLen : Version → Nat) (ec : EcLevel)
    (v : Version)
    (hreg : ∀ m n, 1 ≤ m → m ≤ 40 → 1 ≤ n → n ≤ 40 → regime m = regime n →
      optLen (.Normal m) = optLen (.Normal n))
    (hm1 : optLen (.Normal 9) ≤ optLen (.Normal 26))
    (hm2 : optLen (.Normal 26) ≤ optLen (.Normal 40))
    (hsucc : encode_auto_version optLen ec = .ok v) :
    (∃ n, v = .Normal n ∧ 1 ≤ n ∧ n ≤ 40 ∧ Fits optLen ec v ∧
      ∀ m, 1 ≤ m → m < n → ¬ Fits optLen ec (.Normal m)) ∧
    (∀ length, length ≤ capAt 39 ec →
      ∃ n, find_min_version length ec = .Normal n ∧ 1 ≤ n ∧ n ≤ 40 ∧
        length ≤ capAt (n - 1) ec ∧
        ∀ m, 1 ≤ m → m < n → capAt (m - 1) ec < length) := by
  refine ⟨?_, fun length hlen => find_min_version_spec length ec hlen⟩
  have hsame0 : ∀ k, 1 ≤ k → k ≤ 9 →
      optLen (.Normal k) = optLen (.Normal 9) := by
    intro k hk1 hk9
    refine hreg k 9 hk1 (by omega) (by omega) (by omega) ?_
    simp only [regime]
    split_ifs <;> omega
  have hsame1 : ∀ k, 10 ≤ k → k ≤ 26 →
      optLen (.Normal k) = optLen (.Normal 26) := by
    intro k hk10 hk26
    refine hreg k 26 (by omega) (by omega) (by omega) (by omega) ?_
    simp only [regime]
    split_ifs <;> omega
  have hsame2 : ∀ k, 27 ≤ k → k ≤ 40 →
      optLen (.Normal k) = optLen (.Normal 40) := by
    intro k hk27 hk40
    refine hreg k 40 (by omega) hk40 (by omega) (by omega) ?_
    simp only [regime]
    split_ifs <;> omega
  have hred : encode_auto_version optLen ec =
      (if optLen (.Normal 9) ≤ capAt 8 ec then
        .ok (find_min_version (optLen (.Normal 9)) ec)
      else if optLen (.Normal 26) ≤ capAt 25 ec then
        .ok (find_min_version (optLen (.Normal 26)) ec)
      else if optLen (.Normal 40) ≤ capAt 39 ec then
        .ok (find_min_version (optLen (.Normal 40)) ec)
      else .error .DataTooLong) := rfl
  rw [hred] at hsucc
  by_cases h9 : optLen (.Normal 9) ≤ capAt 8 ec
  · rw [if_pos h9] at hsucc
    injection hsucc with hv
    obtain ⟨n, heq, h1n, h40n, hfit, hmin⟩ := find_min_version_spec
      (optLen (.Normal 9)) ec
      (le_trans h9 (cap_normal_mono_le ec 8 39 (by omega) (by omega)))
    have hvn : v = Version.Normal n := by rw [← hv, heq]
    have hn9 : n ≤ 9 := by
      by_contra hgt
      exact absurd h9 (by simpa using hmin 9 (by omega) (by omega))
    refine ⟨n, hvn, h1n, h40n, ?_, ?_⟩
    · rw [hvn, fits_normal_iff optLen ec n h1n h40n, hsame0 n h1n hn9]
      exact hfit
    · intro m hm1 hmn
      rw [fits_normal_iff optLen ec m hm1 (by omega),
        hsame0 m hm1 (by omega)]
      exact Nat.not_le.mpr (hmin m hm1 hmn)
  · rw [if_neg h9] at hsucc
    push_neg at h9
    by_cases h26 : optLen (.Normal 26) ≤ capAt 25 ec
    · rw [if_pos h26] at hsucc
      injection hsucc with hv
      obtain ⟨n, heq, h1n, h40n, hfit, hmin⟩ := find_min_version_spec
        (optLen (.Normal 26)) ec
        (le_trans h26 (cap_normal_mono_le ec 25 39 (by omega) (by omega)))
      have hvn : v = Version.Normal n := by rw [← hv, heq]
      have hn26 : n ≤ 26 := by
        by_contra hgt
        exact absurd h26 (by simpa using hmin 26 (by omega) (by omega))
      have hn10 : 10 ≤ n := by
        by_contra hlt
        push_neg at hlt
        have hle : capAt (n - 1) ec ≤ capAt 8 ec :=
          cap_normal_mono_le ec (n - 1) 8 (by omega) (by omega)
        omega
      refine ⟨n, hvn, h1n, h40n, ?_, ?_⟩
      · rw [hvn, fits_normal_iff optLen ec n h1n h40n, hsame1 n hn10 hn26]
        exact hfit
      · intro m hm1 hmn
        rw [fits_normal_iff optLen ec m hm1 (by omega)]
        by_cases hm9 : m ≤ 9
        · rw [hsame0 m hm1 hm9]
          have hle : capAt (m - 1) ec ≤ capAt 8 ec :=
            cap_normal_mono_le ec (m - 1) 8 (by omega) (by omega)
          omega
        · rw [hsame1 m (by omega) (by omega)]
          exact Nat.not_le.mpr (hmin m hm1 hmn)
    · rw [if_neg h26] at hsucc
      push_neg at h26
      by_cases h40 : optLen (.Normal 40) ≤ capAt 39 ec
      · rw [if_pos h40] at hsucc
        injection hsucc with hv
        obtain ⟨n, heq, h1n, h40n, hfit, hmin⟩ := find_min_version_spec
          (optLen (.Normal 40)) ec h40
        have hvn : v = Version.Normal n := by rw [← hv, heq]
        have hn27 : 27 ≤ n := by
          by_contra hlt
          push_neg at hlt
          have hle : capAt (n - 1) ec ≤ capAt 25 ec :=
            cap_normal_mono_le ec (n - 1) 25 (by omega) (by omega)
          omega
        refine ⟨n, hvn, h1n, h40n, ?_, ?_⟩
        · rw [hvn, fits_normal_iff optLen ec n h1n h40n, hsame2 n hn27 h40n]
          exact hfit
        · intro m hm1 hmn
          rw [fits_normal_iff optLen ec m hm1 (by omega)]
          by_cases hm9 : m ≤ 9
          · rw [hsame0 m hm1 hm9]
            have hle : capAt (m - 1) ec ≤ capAt 8 ec :=
              cap_normal_mono_le ec (m - 1) 8 (by omega) (by omega)
            omega
          · by_cases hm26 : m ≤ 26
            · rw [hsame1 m (by omega) hm26]
              have hle : capAt (m - 1) ec ≤ capAt 25 ec :=
                cap_normal_mono_le ec (m - 1) 25 (by omega) (by omega)
              omega
            · rw [hsame2 m (by omega) (by omega)]
              exact Nat.not_le.mpr (hmin m hm1 hmn)
      · rw [if_neg h40] at hsucc
        exact Except.noConfusion hsucc

/-- Witness for C1 with a constant encoded length. -/
theorem c1_encode_auto_minimal_witness :
    encode_auto_version (fun _ => 100) EcLevel.L =
      .ok (Version.Normal 1) ∧
    (∃ n, Version.Normal 1 = .Normal n ∧ 1 ≤ n ∧ n ≤ 40 ∧
      Fits (fun _ => 100) EcLevel.L (Version.Normal 1) ∧
      ∀ m, 1 ≤ m → m < n → ¬ Fits (fun _ => 100) EcLevel.L (.Normal m)) := by
  have hfmv : find_min_version 100 EcLevel.L = Version.Normal 1 := by
    obtain ⟨n, heq, h1n, h40n, hfit, hmin⟩ :=
      find_min_version_spec 100 EcLevel.L (by decide)
    have hn1 : n = 1 := by
      by_contra hne
      have h152 : capAt (1 - 1) EcLevel.L < 100 := hmin 1 (by omega) (by omega)
      have h152' : (152 : Nat) < 100 := h152
      omega
    rw [hn1] at heq
    exact heq
  have hsucc : encode_auto_version (fun _ => 100) EcLevel.L =
      .ok (Version.Normal 1) := by
    show (if (100 : Nat) ≤ capAt 8 EcLevel.L then
        Except.ok (find_min_version 100 EcLevel.L)
      else if (100 : Nat) ≤ capAt 25 EcLevel.L then
        Except.ok (find_min_version 100 EcLevel.L)
      else if (100 : Nat) ≤ capAt 39 EcLevel.L then
        Except.ok (find_min_version 100 EcLevel.L)
      else Except.error QrError.DataTooLong) = Except.ok (Version.Normal 1)
    rw [if_pos (by decide : (100 : Nat) ≤ capAt 8 EcLevel.L), hfmv]
  exact ⟨hsucc, (c1_encode_auto_minimal (fun _ => 100) EcLevel.L
    (Version.Normal 1) (fun m n _ _ _ _ _ => rfl) (le_refl _) (le_refl _)
    hsucc).1⟩

/-! ### Claim C4 -/

/-- Unfolding of the inner rMQR height loop on a cons cell. -/
theorem rmqrInnerLoop_cons (optLen : Version → Nat) (ec : EcLevel)
    (w h : Nat) (rest : List Nat) :
    rmqrInnerLoop optLen ec w (h :: rest) =
      (if (Version.Rmqr h w).is_rmqr then
        match (Version.Rmqr h w).fetch ec with
        | .error e => .error e
        | .ok data_capacity =>
            if optLen (Version.Rmqr h w) ≤ data_capacity then
              .ok (some (Version.Rmqr h w))
            else rmqrInnerLoop optLen ec w rest
      else rmqrInnerLoop optLen ec w rest) := rfl

/-- Unfolding of the outer rMQR width loop on a cons cell. -/
theorem rmqrOuterLoop_cons (optLen : Version → Nat) (ec : EcLevel)
    (w : Nat) (rest : List Nat) :
    rmqrOuterLoop optLen ec (w :: rest) =
      (match rmqrInnerLoop optLen ec w rmqr_all_height with
       | .error e => .error e
       | .ok none => rmqrOuterLoop optLen ec rest
       | .ok (some v) =>
           match rmqrOuterLoop optLen ec rest with
           | .error e => .error e
           | .ok vs => .ok (v :: vs)) := rfl

/-- A `Version.Rmqr` passes `is_rmqr` exactly on a standardized pair. -/
theorem is_rmqr_true_of_mem {h w : Nat}
    (hmem : (h, w) ∈ validRmqrPairs) :
    (Version.Rmqr h w).is_rmqr = true := by
  obtain ⟨i, hok, -⟩ := rmqr_index_ok_of_mem hmem
  simp [Version.is_rmqr, hok]

/-- A non-standardized `(h, w)` pair fails `is_rmqr`. -/
theorem is_rmqr_false_of_not_mem {h w : Nat}
    (hnm : (h, w) ∉ validRmqrPairs) :
    (Version.Rmqr h w).is_rmqr = false := by
  have herr := rmqr_index_error_of_not_mem hnm
  simp [Version.is_rmqr, herr]

/-- A non-standardized `(h, w)` pair never fits (its `fetch` errors). -/
theorem not_fits_of_not_mem {optLen : Version → Nat} {ec : EcLevel}
    {h w : Nat} (hnm : (h, w) ∉ validRmqrPairs) :
    ¬ Fits optLen ec (.Rmqr h w) := by
  intro hfit
  unfold Fits at hfit
  have herr := rmqr_index_error_of_not_mem hnm
  simp only [Version.fetch, herr] at hfit

/-- A fitting rMQR version is standardized. -/
theorem mem_of_fits {optLen : Version → Nat} {ec : EcLevel} {h w : Nat}
    (hfit : Fits optLen ec (.Rmqr h w)) : (h, w) ∈ validRmqrPairs := by
  by_contra hnm
  exact not_fits_of_not_mem hnm hfit

/-- Every standardized pair lies on the `rmqr_all_height` ×
`rmqr_all_width` grid. -/
theorem validRmqrPairs_grid :
    ∀ p ∈ validRmqrPairs, p.1 ∈ rmqr_all_height ∧ p.2 ∈ rmqr_all_width := by
  decide

/-- The inner height loop at level M or H never errors; it returns the
first fitting height for the given width, or `none` when no enumerated
height fits. -/
theorem rmqrInnerLoop_spec (optLen : Version → Nat) (ec : EcLevel)
    (hec : ec = .M ∨ ec = .H) (w : Nat) :
    ∀ hs : List Nat, ∃ r, rmqrInnerLoop optLen ec w hs = .ok r ∧
      (r = none → ∀ h ∈ hs, ¬ Fits optLen ec (.Rmqr h w)) ∧
      (∀ v, r = some v → Fits optLen ec v ∧ ∃ h ∈ hs, v = .Rmqr h w) := by
  intro hs
  induction hs with
  | nil =>
      exact ⟨none, rfl, fun _ h hmem => absurd hmem (List.not_mem_nil h),
        fun v hv => Option.noConfusion hv⟩
  | cons h rest ih =>
      obtain ⟨r, hr, hnone, hsome⟩ := ih
      by_cases hmem : (h, w) ∈ validRmqrPairs
      · obtain ⟨c, hf, hcpos⟩ := fetch_rmqr_MH hmem ec hec
        have hirm := is_rmqr_true_of_mem hmem
        by_cases hfitle : optLen (.Rmqr h w) ≤ c
        · refine ⟨some (.Rmqr h w), ?_, fun hc => Option.noConfusion hc, ?_⟩
          · rw [rmqrInnerLoop_cons, if_pos hirm]
            simp only [hf]
            rw [if_pos hfitle]
          · intro v hv
            injection hv with hv2
            subst hv2
            refine ⟨?_, h, List.mem_cons_self h rest, rfl⟩
            unfold Fits
            simp only [hf]
            exact hfitle
        · refine ⟨r, ?_, ?_, ?_⟩
          · rw [rmqrInnerLoop_cons, if_pos hirm]
            simp only [hf]
            rw [if_neg hfitle]
            exact hr
          · intro hc hh hmemhh
            rcases List.mem_cons.mp hmemhh with heq | hmm
            · subst heq
              intro hfits
              unfold Fits at hfits
              simp only [hf] at hfits
              exact hfitle hfits
            · exact hnone hc hh hmm
          · intro v hv
            obtain ⟨hfits, hh, hmemh, hveq⟩ := hsome v hv
            exact ⟨hfits, hh, List.mem_cons_of_mem _ hmemh, hveq⟩
      · have hirm := is_rmqr_false_of_not_mem hmem
        refine ⟨r, ?_, ?_, ?_⟩
        · rw [rmqrInnerLoop_cons, if_neg (by simp [hirm])]
          exact hr
        · intro hc hh hmemhh
          rcases List.mem_cons.mp hmemhh with heq | hmm
          · subst heq
            exact not_fits_of_not_mem hmem
          · exact hnone hc hh hmm
        · intro v hv
          obtain ⟨hfits, hh, hmemh, hveq⟩ := hsome v hv
          exact ⟨hfits, hh, List.mem_cons_of_mem _ hmemh, hveq⟩

/-- The outer width loop at level M or H never errors and collects only
fitting rMQR versions; it returns `[]` exactly when nothing enumerated
fits. -/
theorem rmqrOuterLoop_spec (optLen : Version → Nat) (ec : EcLevel)
    (hec : ec = .M ∨ ec = .H) :
    ∀ ws : List Nat, ∃ cands, rmqrOuterLoop optLen ec ws = .ok cands ∧
      (∀ c ∈ cands, Fits optLen ec c ∧ ∃ hh ww, c = .Rmqr hh ww) ∧
      (cands = [] → ∀ w ∈ ws, ∀ h ∈ rmqr_all_height,
        ¬ Fits optLen ec (.Rmqr h w)) := by
  intro ws
  induction ws with
  | nil =>
      exact ⟨[], rfl, fun c hc => absurd hc (List.not_mem_nil c),
        fun _ w hw => absurd hw (List.not_mem_nil w)⟩
  | cons w rest ih =>
      obtain ⟨cands, hcs, hfitall, hempty⟩ := ih
      obtain ⟨r, hr, hnone, hsome⟩ := rmqrInnerLoop_spec optLen ec hec w
        rmqr_all_height
      cases r with
      | none =>
          refine ⟨cands, ?_, hfitall, ?_⟩
          · rw [rmqrOuterLoop_cons]
            simp only [hr]
            exact hcs
          · intro hc w' hw' h hh
            rcases List.mem_cons.mp hw' with heq | hmm
            · subst heq
              exact hnone rfl h hh
            · exact hempty hc w' hmm h hh
      | some v =>
          refine ⟨v :: cands, ?_, ?_, fun hc => by simp at hc⟩
          · rw [rmqrOuterLoop_cons]
            simp only [hr, hcs]
          · intro c hcmem
            rcases List.mem_cons.mp hcmem with heq | hmm
            · subst heq
              obtain ⟨hfits, hh, hmemh, hveq⟩ := hsome c rfl
              exact ⟨hfits, hh, w, hveq⟩
            · exact hfitall c hmm

/-- C4 (corrected, and restricted to the levels M and H at which rMQR
capacities are tabulated): `encode_auto_rmqr` fails with `DataTooLong`
exactly when no rMQR version fits; on success it returns the version
chosen by the strategy among the fitting candidates collected in
width-ascending order — `Width` the first candidate, `Height` a candidate
of minimal height, `Area` a candidate of minimal area.  (At levels L and Q
the search instead fails with `InvalidVersion`.) -/
theorem c4_rmqr_strategy (optLen : Version → Nat) (ec : EcLevel)
    (strategy : RmqrStrategy) (hec : ec = .M ∨ ec = .H) :
    (encode_auto_rmqr_version optLen ec strategy = .error .DataTooLong ↔
      ∀ hh ww, ¬ Fits optLen ec (.Rmqr hh ww)) ∧
    (∀ v, encode_auto_rmqr_version optLen ec strategy = .ok v →
      ∃ cands, rmqrOuterLoop optLen ec rmqr_all_width = .ok cands ∧
        (∀ c ∈ cands, Fits optLen ec c) ∧
        Fits optLen ec v ∧
        (match strategy with
         | .Width => cands.head? = some v
         | .Height => v ∈ cands ∧ ∀ c ∈ cands, v.height ≤ c.height
         | .Area => v ∈ cands ∧ ∀ c ∈ cands, v.area ≤ c.area)) := by
  obtain ⟨cands, houter, hfitall, hempty⟩ :=
    rmqrOuterLoop_spec optLen ec hec rmqr_all_width
  have hnofit : cands = [] → ∀ hh ww, ¬ Fits optLen ec (.Rmqr hh ww) := by
    intro hnil hh ww hfit
    obtain ⟨hhin, hwin⟩ := validRmqrPairs_grid (hh, ww) (mem_of_fits hfit)
    exact hempty hnil ww hwin hh hhin hfit
  have hnil_of_all : (∀ hh ww, ¬ Fits optLen ec (.Rmqr hh ww)) →
      cands = [] := by
    intro hall
    rcases hcnil : cands with - | ⟨c, cs⟩
    · rfl
    · exfalso
      have hcm : c ∈ cands := by
        rw [hcnil]
        exact List.mem_cons_self c cs
      obtain ⟨hfits, hh, ww, hceq⟩ := hfitall c hcm
      rw [hceq] at hfits
      exact hall hh ww hfits
  cases strategy with
  | Width =>
      have hred : encode_auto_rmqr_version optLen ec .Width =
          (match cands.head? with
           | some v => .ok v
           | none => .error .DataTooLong) := by
        unfold encode_auto_rmqr_version
        rw [houter]
      constructor
      · constructor
        · intro herr
          rcases hcnil : cands with - | ⟨c, cs⟩
          · exact hnofit hcnil
          · rw [hred, hcnil] at herr
            simp only [List.head?_cons] at herr
            exact Except.noConfusion herr
        · intro hall
          rw [hred, hnil_of_all hall]
          rfl
      · intro v hok
        rcases hcnil : cands with - | ⟨c, cs⟩
        · rw [hred, hcnil] at hok
          simp only [List.head?_nil] at hok
          exact Except.noConfusion hok
        · rw [hred, hcnil] at hok
          simp only [List.head?_cons] at hok
          injection hok with hveq
          subst hveq
          have hcm : c ∈ cands := by
            rw [hcnil]
            exact List.mem_cons_self c cs
          refine ⟨cands, houter, fun c' hc' => (hfitall c' hc').1,
            (hfitall c hcm).1, ?_⟩
          rw [hcnil]
          simp
  | Height =>
      have hred : encode_auto_rmqr_version optLen ec .Height =
          (match cands.argmin Version.height with
           | some v => .ok v
           | none => .error .DataTooLong) := by
        unfold encode_auto_rmqr_version
        rw [houter]
      constructor
      · constructor
        · intro herr
          rcases hm : cands.argmin Version.height with - | v0
          · exact hnofit (List.argmin_eq_none.mp hm)
          · rw [hred] at herr
            simp only [hm] at herr
            exact Except.noConfusion herr
        · intro hall
          rw [hred, hnil_of_all hall, List.argmin_eq_none.mpr rfl]
      · intro v hok
        rw [hred] at hok
        rcases hm : cands.argmin Version.height with - | v0
        · simp only [hm] at hok
          exact Except.noConfusion hok
        · simp only [hm] at hok
          injection hok with hveq
          subst hveq
          have hvmem : v0 ∈ cands := List.argmin_mem (Option.mem_def.mpr hm)
          exact ⟨cands, houter, fun c' hc' => (hfitall c' hc').1,
            (hfitall v0 hvmem).1, hvmem,
            fun c' hc' => List.le_of_mem_argmin hc' (Option.mem_def.mpr hm)⟩
  | Area =>
      have hred : encode_auto_rmqr_version optLen ec .Area =
          (match cands.argmin Version.area with
           | some v => .ok v
           | none => .error .DataTooLong) := by
        unfold encode_auto_rmqr_version
        rw [houter]
      constructor
      · constructor
        · intro herr
          rcases hm : cands.argmin Version.area with - | v0
          · exact hnofit (List.argmin_eq_none.mp hm)
          · rw [hred] at herr
            simp only [hm] at herr
            exact Except.noConfusion herr
        · intro hall
          rw [hred, hnil_of_all hall, List.argmin_eq_none.mpr rfl]
      · intro v hok
        rw [hred] at hok
        rcases hm : cands.argmin Version.area with - | v0
        · simp only [hm] at hok
          exact Except.noConfusion hok
        · simp only [hm] at hok
          injection hok with hveq
          subst hveq
          have hvmem : v0 ∈ cands := List.argmin_mem (Option.mem_def.mpr hm)
          exact ⟨cands, houter, fun c' hc' => (hfitall c' hc').1,
            (hfitall v0 hvmem).1, hvmem,
            fun c' hc' => List.le_of_mem_argmin hc' (Option.mem_def.mpr hm)⟩

/-- Witness for C4 at level M with a trivial encoded length. -/
theorem c4_rmqr_strategy_witness :
    (EcLevel.M = .M ∨ EcLevel.M = .H) ∧
    (encode_auto_rmqr_version (fun _ => 0) EcLevel.M RmqrStrategy.Width =
        .error .DataTooLong ↔
      ∀ hh ww, ¬ Fits (fun _ => 0) EcLevel.M (.Rmqr hh ww)) :=
  ⟨Or.inl rfl,
    (c4_rmqr_strategy (fun _ => 0) EcLevel.M RmqrStrategy.Width
      (Or.inl rfl)).1⟩

/-- C4 counterexample to the claimed `DataTooLong` failure: at level L no
rMQR version fits (every capacity entry is zero), yet the search fails
with `InvalidVersion` — the `?` on `fetch` fires before any capacity
check. -/
theorem c4_counterexample :
    encode_auto_rmqr_version (fun _ => 0) EcLevel.L RmqrStrategy.Width =
      .error .InvalidVersion ∧
    (∀ hh ww, ¬ Fits (fun _ => 0) EcLevel.L (.Rmqr hh ww)) := by
  constructor
  · decide
  · intro hh ww hfit
    have hmem := mem_of_fits hfit
    obtain ⟨i, hok, hi⟩ := rmqr_index_ok_of_mem hmem
    have hz : capAt (i + 44) EcLevel.L = 0 := (cap_rmqr_LQ_zero i hi).1
    unfold Fits at hfit
    simp [Version.fetch, hok, hz] at hfit
